import Mathlib

/-!
Verification of the goraft consensus library against its specification.

The development shallowly embeds the persistent log store, the persistent
state store, the persistent snapshot store, and the Raft node's RPC
handlers and worker-loop bodies as pure Lean functions over explicit
state records.  Machine integers (Go `uint64`) are modelled as `Nat`
with explicit wraparound where the source exercises it (index
subtraction).  Fallible operations return `Option`/`Except`-style
results; a `Fatalf` or a Go runtime panic is modelled as the absence of
a successor state.
-/

namespace Goraft

/-- U64 is the modulus of Go's 64-bit unsigned integer arithmetic. -/
def U64 : Nat := 2 ^ 64

/-- sub64 a b is the Go `uint64` subtraction `a - b` (wrapping on
underflow) for operands already reduced below `U64`. -/
def sub64 (a b : Nat) : Nat := (a + (U64 - b % U64)) % U64

/-- LogEntryType mirrors the Go `LogEntryType` enumeration:
`NoOpEntry` and `OperationEntry`. -/
inductive LogEntryType where
  | noOpEntry
  | operationEntry
deriving DecidableEq, Repr

/-- LogEntry mirrors the Go `LogEntry` struct: index, term, file
offset, payload data, and entry type. -/
structure LogEntry where
  index : Nat
  term : Nat
  offset : Int
  data : List Nat
  entryType : LogEntryType
deriving DecidableEq, Repr

/-- firstIndexOf returns `entries[0].Index`, the Go expression the log
store uses for the base of the in-memory entry slice (0 on the empty
slice, which the open log never exhibits). -/
def firstIndexOf (entries : List LogEntry) : Nat :=
  match entries.head? with
  | some e => e.index
  | none => 0

/-- lastIndexOf returns `entries[len-1].Index` as used by
`LastIndex()` (0 on the empty slice). -/
def lastIndexOf (entries : List LogEntry) : Nat :=
  match entries.getLast? with
  | some e => e.index
  | none => 0

/-- lastTermOf returns `entries[len-1].Term` as used by `LastTerm()`. -/
def lastTermOf (entries : List LogEntry) : Nat :=
  match entries.getLast? with
  | some e => e.term
  | none => 0

/-- nextIndexOf returns `LastIndex() + 1` as used by `NextIndex()`. -/
def nextIndexOf (entries : List LogEntry) : Nat :=
  lastIndexOf entries + 1

/-- GetEntryRes is the outcome of the log store's `GetEntry`:
the not-open error, the "index does not exist" error, a Go runtime
panic from indexing the entry slice out of range, or the entry. -/
inductive GetEntryRes where
  | notOpen
  | indexErr
  | outOfRange
  | ok (e : LogEntry)
deriving DecidableEq, Repr

/-- entriesGetEntry is the body of `persistentLog.GetEntry` after the
open check: `logIndex := index - entries[0].Index` in `uint64`
arithmetic, the rejection `logIndex <= 0 || logIndex > lastIndex`
(comparing the slice position against the absolute last index), and the
slice access `entries[logIndex]`. -/
def entriesGetEntry (entries : List LogEntry) (index : Nat) : GetEntryRes :=
  let logIndex := sub64 index (firstIndexOf entries)
  let lastIndex := lastIndexOf entries
  if logIndex = 0 ∨ logIndex > lastIndex then .indexErr
  else
    match entries.get? logIndex with
    | some e => .ok e
    | none => .outOfRange

/-- entriesContains is the body of `persistentLog.Contains`:
`!(logIndex <= 0 || logIndex >= len(entries))`. -/
def entriesContains (entries : List LogEntry) (index : Nat) : Bool :=
  let logIndex := sub64 index (firstIndexOf entries)
  ¬ (logIndex = 0 ∨ logIndex ≥ entries.length)

/-- entriesTruncate is the body of `persistentLog.Truncate` after the
open check: reject when `logIndex <= 0 || logIndex >= len(entries)`,
otherwise keep `entries[:logIndex]`.  `none` is the error case. -/
def entriesTruncate (entries : List LogEntry) (index : Nat) : Option (List LogEntry) :=
  let logIndex := sub64 index (firstIndexOf entries)
  if logIndex = 0 ∨ logIndex ≥ entries.length then none
  else some (entries.take logIndex)

/-- entrySize models the byte size of one encoded log record.
Modelled from the spec: `encodeLogEntry` lives in `internal/` and is
out of scope; §6 fixes a length-prefixed framing (4-byte length,
u64 index, u64 term, i64 offset, data bytes, u32 entry type), and the
spec makes the offsets internal to the log, so any concrete size
function is adequate. -/
def entrySize (e : LogEntry) : Int :=
  Int.ofNat (4 + 8 + 8 + 8 + e.data.length + 4)

/-- recomputeOffsets rewrites a retained suffix to a fresh file,
assigning each entry the file offset at which it is written, exactly as
the loop in `persistentLog.Compact` does. -/
def recomputeOffsets : List LogEntry → Int → List LogEntry
  | [], _ => []
  | e :: rest, off => { e with offset := off } :: recomputeOffsets rest (off + entrySize e)

/-- entriesCompact is the body of `persistentLog.Compact` after the
open check: reject when `logIndex <= 0 || logIndex >= len(entries)`,
otherwise retain `entries[logIndex:]` rewritten with fresh offsets.
`none` is the error case. -/
def entriesCompact (entries : List LogEntry) (index : Nat) : Option (List LogEntry) :=
  let logIndex := sub64 index (firstIndexOf entries)
  if logIndex = 0 ∨ logIndex ≥ entries.length then none
  else some (recomputeOffsets (entries.drop logIndex) 0)

/-- entriesDiscard is the body of `persistentLog.DiscardEntries`: the
log is replaced by a single placeholder entry `{Index: index, Term:
term}` (zero data, zero offset, `NoOpEntry` type). -/
def entriesDiscard (index term : Nat) : List LogEntry :=
  [⟨index, term, 0, [], .noOpEntry⟩]

/-- PLog is the in-memory view of `persistentLog`: whether the backing
file is open (`file != nil`) and the entry slice. -/
structure PLog where
  isOpen : Bool
  entries : List LogEntry
deriving DecidableEq, Repr

/-- PLog.getEntry is `persistentLog.GetEntry` including the open
check. -/
def PLog.getEntry (l : PLog) (index : Nat) : GetEntryRes :=
  if l.isOpen = false then .notOpen
  else entriesGetEntry l.entries index

/-- PLog.compact is `persistentLog.Compact` including the open check.
The first component is the error (`none` on success); the second is the
log as left by the call (unchanged on error, since the in-memory slice
is replaced only after all checks and writes succeed). -/
def PLog.compact (l : PLog) (index : Nat) : Option String × PLog :=
  if l.isOpen = false then (some "log is not open", l)
  else
    match entriesCompact l.entries index with
    | none => (some "index does not exist", l)
    | some newEntries => (none, { l with entries := newEntries })

/-- LogWF is the log invariant assumed by the spec for an open log:
the file is open, the sentinel makes the slice nonempty, indices are
contiguous from the sentinel (`entries[p].Index = firstIndex + p`),
and the last index fits in `uint64`. -/
def LogWF (l : PLog) : Prop :=
  l.isOpen = true ∧ l.entries ≠ [] ∧
  (∀ p : Fin l.entries.length, (l.entries.get p).index = firstIndexOf l.entries + p) ∧
  lastIndexOf l.entries < U64

instance (l : PLog) : Decidable (LogWF l) := by
  unfold LogWF
  infer_instance

lemma sub64_eq_of_le {a b : Nat} (hba : b ≤ a) (ha : a < U64) : sub64 a b = a - b := by
  simp only [sub64, U64] at *
  omega

lemma sub64_underflow {a b : Nat} (hab : a < b) (hb : b < U64) : sub64 a b = U64 - (b - a) := by
  simp only [sub64, U64] at *
  omega

lemma logwf_last (l : PLog) (h : LogWF l) :
    lastIndexOf l.entries = firstIndexOf l.entries + (l.entries.length - 1) := by
  obtain ⟨-, hne, hpos, -⟩ := h
  have hlen : 0 < l.entries.length := List.length_pos.mpr hne
  have hget : l.entries.getLast? = l.entries[l.entries.length - 1]? :=
    List.getLast?_eq_getElem? l.entries
  have hg : l.entries[l.entries.length - 1]?
      = some (l.entries.get ⟨l.entries.length - 1, by omega⟩) := by
    rw [List.getElem?_eq_getElem (by omega)]
    rfl
  have := hpos ⟨l.entries.length - 1, by omega⟩
  simp only [lastIndexOf, hget, hg, this]

lemma logwf_first_le_last (l : PLog) (h : LogWF l) :
    firstIndexOf l.entries ≤ lastIndexOf l.entries := by
  rw [logwf_last l h]
  omega

/-- mkEntry builds a log entry with the given index and term, empty
data, zero offset, and operation type. -/
def mkEntry (i t : Nat) : LogEntry := ⟨i, t, 0, [], .operationEntry⟩

/-- c4Log is a compacted open log holding entries 5 through 10, with
the sentinel at index 5: exactly the in-memory state the log reaches
after `Compact(5)` on a log that once held indices 0 through 10. -/
def c4Log : PLog :=
  ⟨true, [mkEntry 5 1, mkEntry 6 1, mkEntry 7 1, mkEntry 8 2, mkEntry 9 2, mkEntry 10 2]⟩

/-- C4: the claim states that `GetEntry(i)` fails with "index does not
exist" exactly when `i ≤ firstIndex` or `i > lastIndex`, and never
accesses a position outside the in-memory entries.  The code computes
the slice position `index - entries[0].Index` but compares it against
the absolute `lastIndex` rather than the slice length, so on the
compacted log `c4Log` (first index 5, last index 10) the request
`GetEntry(12)` passes the check (position 7 is not greater than 10) and
indexes the 6-element slice at position 7: a Go runtime panic instead
of the claimed error.  `Contains(12)` on the same log is false, showing
the sibling bound the code should have used. -/
theorem c4_getEntry_panics_beyond_last :
    LogWF c4Log ∧ 12 > lastIndexOf c4Log.entries ∧
      c4Log.getEntry 12 = .outOfRange ∧ entriesContains c4Log.entries 12 = false := by
  decide

/-- entryCore projects the durable content of a log entry: index,
term, data, and entry type (the offset is internal to the file
layout). -/
def entryCore (e : LogEntry) : Nat × Nat × List Nat × LogEntryType :=
  (e.index, e.term, e.data, e.entryType)

lemma recomputeOffsets_map_core (l : List LogEntry) (off : Int) :
    (recomputeOffsets l off).map entryCore = l.map entryCore := by
  induction l generalizing off with
  | nil => rfl
  | cons e rest ih => simp [recomputeOffsets, entryCore, ih]

lemma firstIndexOf_recomputeOffsets (l : List LogEntry) (off : Int) :
    firstIndexOf (recomputeOffsets l off) = firstIndexOf l := by
  cases l with
  | nil => rfl
  | cons e rest => rfl

lemma firstIndexOf_drop (l : List LogEntry) (k : Nat) (hk : k < l.length) :
    firstIndexOf (l.drop k) = (l.get ⟨k, hk⟩).index := by
  have hhead : (l.drop k).head? = some (l.get ⟨k, hk⟩) := by
    rw [List.head?_eq_getElem?, List.getElem?_drop, Nat.add_zero]
    rw [List.getElem?_eq_getElem hk]
    rfl
  simp only [firstIndexOf, hhead]

lemma pos_index_tail {a : LogEntry} {rest : List LogEntry} {f : Nat}
    (h : ∀ p : Fin (a :: rest).length, ((a :: rest).get p).index = f + p) :
    ∀ p : Fin rest.length, (rest.get p).index = (f + 1) + p := by
  intro p
  have hp : p.val + 1 < (a :: rest).length := by
    simp only [List.length_cons]
    omega
  have h1 := h ⟨p.val + 1, hp⟩
  have h2 : (a :: rest).get ⟨p.val + 1, hp⟩ = rest.get p := by
    simp [List.get_eq_getElem]
  have hv : ((⟨p.val + 1, hp⟩ : Fin (a :: rest).length) : Nat) = p.val + 1 := rfl
  rw [h2, hv] at h1
  omega

lemma pos_index_head {a : LogEntry} {rest : List LogEntry} {f : Nat}
    (h : ∀ p : Fin (a :: rest).length, ((a :: rest).get p).index = f + p) :
    a.index = f := by
  have := h ⟨0, by simp⟩
  simpa using this

lemma filter_ge_eq_drop :
    ∀ (l : List LogEntry) (f k : Nat),
      (∀ p : Fin l.length, (l.get p).index = f + p) →
      l.filter (fun e => decide (f + k ≤ e.index)) = l.drop k := by
  intro l
  induction l with
  | nil => intro f k _; simp
  | cons a rest ih =>
    intro f k h
    have ha : a.index = f := pos_index_head h
    have htail := pos_index_tail h
    cases k with
    | zero =>
      simp only [List.drop_zero]
      rw [List.filter_eq_self]
      intro e he
      obtain ⟨p, hp⟩ := List.mem_iff_get.mp he
      have := h p
      rw [hp] at this
      simp only [decide_eq_true_eq]
      omega
    | succ k' =>
      have hna : (decide (f + (k' + 1) ≤ a.index)) = false := by
        simp only [decide_eq_false_iff_not]
        omega
      simp only [List.filter_cons, hna, Bool.false_eq_true, if_false, List.drop_succ_cons]
      have hres := ih (f + 1) k' htail
      have hfun : (fun (e : LogEntry) => decide (f + (k' + 1) ≤ e.index))
          = (fun (e : LogEntry) => decide (f + 1 + k' ≤ e.index)) := by
        funext e
        have : f + (k' + 1) = f + 1 + k' := by omega
        rw [this]
      rw [hfun, hres]

/-- C6: on an open log satisfying the log invariants, `Compact(i)`
succeeds exactly for `firstIndex < i ≤ lastIndex`; on success the new
first index is `i` and the retained suffix (all entries with index
`≥ i`) is unchanged in index, term, data, and entry type (offsets are
recomputed for the fresh file); for any other `uint64` index the call
fails with "index does not exist" and leaves the log unchanged. -/
theorem c6_compact_spec (l : PLog) (i : Nat) (h : LogWF l) (hu : i < U64) :
    (firstIndexOf l.entries < i ∧ i ≤ lastIndexOf l.entries →
      (l.compact i).1 = none ∧
      firstIndexOf (l.compact i).2.entries = i ∧
      (l.compact i).2.entries.map entryCore
        = (l.entries.filter (fun e => decide (i ≤ e.index))).map entryCore) ∧
    (¬ (firstIndexOf l.entries < i ∧ i ≤ lastIndexOf l.entries) →
      (l.compact i).1 = some "index does not exist" ∧ (l.compact i).2 = l) := by
  obtain ⟨hopen, hne, hpos, hlt⟩ := h
  have hlast := logwf_last l ⟨hopen, hne, hpos, hlt⟩
  have hlen : 0 < l.entries.length := List.length_pos.mpr hne
  have hflt : firstIndexOf l.entries ≤ lastIndexOf l.entries :=
    logwf_first_le_last l ⟨hopen, hne, hpos, hlt⟩
  have hfu : firstIndexOf l.entries < U64 := by omega
  constructor
  · rintro ⟨hlo, hhi⟩
    have hsub : sub64 i (firstIndexOf l.entries) = i - firstIndexOf l.entries :=
      sub64_eq_of_le (by omega) hu
    have hpos0 : i - firstIndexOf l.entries ≠ 0 := by omega
    have hposlen : i - firstIndexOf l.entries < l.entries.length := by omega
    have hcond : ¬ (i - firstIndexOf l.entries = 0
        ∨ i - firstIndexOf l.entries ≥ l.entries.length) := by
      push_neg
      exact ⟨hpos0, by omega⟩
    have hcomp : entriesCompact l.entries i
        = some (recomputeOffsets (l.entries.drop (i - firstIndexOf l.entries)) 0) := by
      simp only [entriesCompact, hsub]
      rw [if_neg hcond]
    have hres : l.compact i
        = (none, { l with entries :=
            recomputeOffsets (l.entries.drop (i - firstIndexOf l.entries)) 0 }) := by
      simp only [PLog.compact, hopen, Bool.true_eq_false, if_false, hcomp]
    refine ⟨by rw [hres], ?_, ?_⟩
    · rw [hres]
      simp only
      rw [firstIndexOf_recomputeOffsets,
        firstIndexOf_drop l.entries (i - firstIndexOf l.entries) hposlen,
        hpos ⟨i - firstIndexOf l.entries, hposlen⟩]
      have hval : ((⟨i - firstIndexOf l.entries, hposlen⟩ : Fin l.entries.length) : Nat)
          = i - firstIndexOf l.entries := rfl
      rw [hval]
      omega
    · rw [hres]
      simp only
      rw [recomputeOffsets_map_core]
      have hfe : l.entries.filter (fun e => decide (i ≤ e.index))
          = l.entries.drop (i - firstIndexOf l.entries) := by
        have hdrop := filter_ge_eq_drop l.entries (firstIndexOf l.entries)
          (i - firstIndexOf l.entries) hpos
        have hik : firstIndexOf l.entries + (i - firstIndexOf l.entries) = i := by omega
        rw [hik] at hdrop
        exact hdrop
      rw [hfe]
  · intro hout
    have hcomp : entriesCompact l.entries i = none := by
      simp only [entriesCompact]
      rw [if_pos]
      by_cases hcase : i ≤ firstIndexOf l.entries
      · by_cases heq : i = firstIndexOf l.entries
        · left
          rw [heq, sub64_eq_of_le (le_refl _) hfu]
          omega
        · right
          have hilt : i < firstIndexOf l.entries := by omega
          rw [sub64_underflow hilt hfu]
          omega
      · have hib : lastIndexOf l.entries < i := by omega
        right
        rw [sub64_eq_of_le (by omega) hu]
        omega
    have hres : l.compact i = (some "index does not exist", l) := by
      simp only [PLog.compact, hopen, Bool.true_eq_false, if_false, hcomp]
    rw [hres]
    exact ⟨rfl, rfl⟩

/-- c6Log is an open compacted log holding entries 4 through 9 used to
instantiate the compaction theorem. -/
def c6Log : PLog :=
  ⟨true, [mkEntry 4 1, mkEntry 5 1, mkEntry 6 2, mkEntry 7 2, mkEntry 8 3, mkEntry 9 3]⟩

/-- Witness for C6: compacting `c6Log` at index 7 succeeds, makes 7 the
first index, and keeps entries 7, 8, 9 unchanged in durable content;
compacting at index 11 fails and leaves the log unchanged. -/
theorem c6_compact_witness :
    ((c6Log.compact 7).1 = none ∧
      firstIndexOf (c6Log.compact 7).2.entries = 7 ∧
      (c6Log.compact 7).2.entries.map entryCore
        = (c6Log.entries.filter (fun e => decide (7 ≤ e.index))).map entryCore) ∧
    ((c6Log.compact 11).1 = some "index does not exist" ∧ (c6Log.compact 11).2 = c6Log) :=
  ⟨(c6_compact_spec c6Log 7 (by decide) (by decide)).1 ⟨by decide, by decide⟩,
   (c6_compact_spec c6Log 11 (by decide) (by decide)).2 (by decide)⟩

/-- GoFile models an `*os.File` handle: whether `Close` has already
been called on it. -/
structure GoFile where
  closed : Bool
deriving DecidableEq, Repr

/-- PersistentStateRec mirrors the Go `persistentState` struct: the
term and vote that Raft must persist. -/
structure PersistentStateRec where
  term : Nat
  votedFor : String
deriving DecidableEq, Repr

/-- SStore is the in-memory and on-disk view of
`persistentStateStorage`: the file handle (`none` when the store was
never opened — mirroring `p.file == nil`), the records currently in
the backing `state.bin` file, and the most recently persisted state. -/
structure SStore where
  file : Option GoFile
  contents : List PersistentStateRec
  state : PersistentStateRec
deriving DecidableEq, Repr

/-- SStore.openS is `persistentStateStorage.Open`: acquires a fresh
handle on `state.bin` (created if absent, existing contents kept). -/
def SStore.openS (s : SStore) : SStore :=
  { s with file := some ⟨false⟩ }

/-- decodePersistentState reads the first state record of the file.
Modelled from the spec: the concrete codec (`decodePersistentState` in
`internal/`) is not under `src/`, and §1 places the encoding format out
of scope, fixing only the semantic content {term, votedFor}; an empty
file decodes as EOF, which `Replay` maps to the zero state (0, ""). -/
def decodePersistentState (contents : List PersistentStateRec) : PersistentStateRec :=
  match contents.head? with
  | some r => r
  | none => ⟨0, ""⟩

/-- SStore.replay is `persistentStateStorage.Replay`: errors when the
store was never opened, otherwise decodes the file into the in-memory
state. -/
def SStore.replay (s : SStore) : Except String SStore :=
  match s.file with
  | none => .error "state storage is not open"
  | some _ => .ok { s with state := decodePersistentState s.contents }

/-- SStore.setState is `persistentStateStorage.SetState`: errors when
the handle is `nil`; otherwise assigns the in-memory state, writes the
new record to a temp file, syncs, closes both files, atomically renames
the temp file over `state.bin`, and reopens.  When the retained handle
was already closed, the `p.file.Close()` step fails and the call
returns an I/O error after the in-memory state was already
overwritten, without renaming. -/
def SStore.setState (s : SStore) (term : Nat) (votedFor : String) : Option String × SStore :=
  match s.file with
  | none => (some "state storage is not open", s)
  | some f =>
    let s1 := { s with state := (⟨term, votedFor⟩ : PersistentStateRec) }
    if f.closed then (some "failed while persisting state", s1)
    else (none, { s1 with contents := [⟨term, votedFor⟩], file := some ⟨false⟩ })

/-- SStore.stateOp is `persistentStateStorage.State`: errors when the
handle is `nil`, otherwise returns the in-memory state — even after
`Close`, because `Close` never sets the handle back to `nil`. -/
def SStore.stateOp (s : SStore) : Except String (Nat × String) :=
  match s.file with
  | none => .error "state storage is not open"
  | some _ => .ok (s.state.term, s.state.votedFor)

/-- SStore.close is `persistentStateStorage.Close`: a `nil` handle is a
no-op; closing an already-closed handle surfaces the file error and
leaves the state intact; otherwise the file is closed and the in-memory
state zeroed — but the handle field keeps the (closed) file, it is not
reset to `nil`. -/
def SStore.close (s : SStore) : Option String × SStore :=
  match s.file with
  | none => (none, s)
  | some f =>
    if f.closed then (some "failed to close state storage file", s)
    else (none, { s with file := some ⟨true⟩, state := ⟨0, ""⟩ })

/-- SStore.crash models a process crash: all in-memory state is lost,
only the file contents survive. -/
def SStore.crash (s : SStore) : SStore :=
  ⟨none, s.contents, ⟨0, ""⟩⟩

/-- C5: when `setState(t, v)` returns successfully (the store is open
on a live handle), every subsequent `state()` returns (t, v), and after
a crash, reopening and replaying the persisted file also makes
`state()` return (t, v). -/
theorem c5_setState_durable (s : SStore) (t : Nat) (v : String)
    (h : s.file = some ⟨false⟩) :
    (s.setState t v).1 = none ∧
    (s.setState t v).2.stateOp = .ok (t, v) ∧
    ∃ s2, (s.setState t v).2.crash.openS.replay = .ok s2 ∧ s2.stateOp = .ok (t, v) := by
  have hset : s.setState t v
      = (none, { s with state := ⟨t, v⟩, contents := [⟨t, v⟩], file := some ⟨false⟩ }) := by
    simp [SStore.setState, h]
  rw [hset]
  exact ⟨rfl, rfl, ⟨_, rfl, rfl⟩⟩

/-- c5Store is a freshly opened state store holding older state
(1, "old"). -/
def c5Store : SStore := ⟨some ⟨false⟩, [⟨1, "old"⟩], ⟨1, "old"⟩⟩

/-- Witness for C5 at a concrete store holding older state (1, "old"):
`setState 7 "B"` succeeds, `state()` returns (7, "B"), and replay after
a crash returns (7, "B") as well. -/
theorem c5_setState_durable_witness :
    (c5Store.setState 7 "B").1 = none ∧
    (c5Store.setState 7 "B").2.stateOp = .ok (7, "B") ∧
    ∃ s2, (c5Store.setState 7 "B").2.crash.openS.replay = .ok s2 ∧
      s2.stateOp = .ok (7, "B") :=
  c5_setState_durable c5Store 7 "B" (by decide)

/-- c7Store is a freshly opened state store holding state (5, "x"). -/
def c7Store : SStore := ⟨some ⟨false⟩, [⟨5, "x"⟩], ⟨5, "x"⟩⟩

/-- Counterexample for C7: after `Close()` on an open store, `State()`
does not fail with the "not open" error as the claim demands — `Close`
clears the in-memory state but never resets the handle to `nil`, so
`State()` returns (0, "") with no error, and `SetState` proceeds past
the open check and fails later with the generic persistence error. -/
theorem c7_close_counterexample :
    (c7Store.close).1 = none ∧
    (c7Store.close).2.stateOp = .ok (0, "") ∧
    ((c7Store.close).2.setState 9 "y").1 = some "failed while persisting state" :=
  ⟨rfl, rfl, rfl⟩

/-- C7 (amended): `State()` and `SetState()` fail with the "not open"
error exactly when the store was never opened (`file == nil`); `Close`
on a live handle keeps the (closed) handle in place, so a
subsequent `State()` returns (0, "") without error, per the `State`
documentation ("if there is no pre-existing state or the storage is
closed, zero and an empty string will be returned"). -/
theorem c7_not_open_amended (s : SStore) (t : Nat) (v : String) :
    (s.stateOp = .error "state storage is not open" ↔ s.file = none) ∧
    ((s.setState t v).1 = some "state storage is not open" ↔ s.file = none) ∧
    (s.file = some ⟨false⟩ →
      (s.close).2.file = some ⟨true⟩ ∧ (s.close).2.stateOp = .ok (0, "")) := by
  refine ⟨?_, ?_, ?_⟩
  · cases hf : s.file with
    | none => simp [SStore.stateOp, hf]
    | some f => simp [SStore.stateOp, hf]
  · cases hf : s.file with
    | none => simp [SStore.setState, hf]
    | some f =>
      simp only [SStore.setState, hf]
      cases hc : f.closed with
      | true =>
        simp only [if_true]
        constructor
        · intro heq
          exact absurd (Option.some.inj heq) (by decide)
        · intro heq
          exact absurd heq (by simp)
      | false =>
        simp only [Bool.false_eq_true, if_false]
        constructor
        · intro heq
          exact absurd heq (by simp)
        · intro heq
          exact absurd heq (by simp)
  · intro hf
    simp [SStore.close, hf, SStore.stateOp]

/-- Witness for C7's amended statement at the concrete store
`c7Store`. -/
theorem c7_not_open_amended_witness :
    (c7Store.stateOp = .error "state storage is not open" ↔ c7Store.file = none) ∧
    ((c7Store.setState 3 "z").1 = some "state storage is not open" ↔ c7Store.file = none) ∧
    (c7Store.file = some ⟨false⟩ →
      (c7Store.close).2.file = some ⟨true⟩ ∧ (c7Store.close).2.stateOp = .ok (0, "")) :=
  c7_not_open_amended c7Store 3 "z"

/-- Snapshot mirrors the Go `Snapshot` struct. -/
structure Snapshot where
  lastIncludedIndex : Nat
  lastIncludedTerm : Nat
  data : List Nat
deriving DecidableEq, Repr

/-- SnapStore is the in-memory view of `persistentSnapshotStorage`:
the optional file handle and the list of snapshots replayed or saved so
far. -/
structure SnapStore where
  file : Option GoFile
  snapshots : List Snapshot
deriving DecidableEq, Repr

/-- SnapStore.saveSnapshot is `persistentSnapshotStorage.SaveSnapshot`:
it errors when the store is not open; otherwise it encodes the record,
flushes, and syncs — `ioErr` injects a failure of any of those three
I/O steps — and only after they all succeed appends the snapshot to the
in-memory list. -/
def SnapStore.saveSnapshot (s : SnapStore) (snap : Snapshot) (ioErr : Bool) :
    Option String × SnapStore :=
  match s.file with
  | none => (some "snapshot storage is not open", s)
  | some _ =>
    if ioErr then (some "failed to save snapshot", s)
    else (none, { s with snapshots := s.snapshots ++ [snap] })

/-- SnapStore.lastSnapshot is `persistentSnapshotStorage.LastSnapshot`:
errors when not open, returns `none` on an empty list, otherwise the
most recently recorded snapshot. -/
def SnapStore.lastSnapshot (s : SnapStore) : Except String (Option Snapshot) :=
  match s.file with
  | none => .error "snapshot storage is not open"
  | some _ =>
    match s.snapshots.getLast? with
    | none => .ok none
    | some snap => .ok (some snap)

/-- SnapStore.listSnapshots is
`persistentSnapshotStorage.ListSnapshots`: it returns the in-memory
list, paired with the not-open error when the store is closed. -/
def SnapStore.listSnapshots (s : SnapStore) : Option String × List Snapshot :=
  match s.file with
  | none => (some "snapshot storage is not open", s.snapshots)
  | some _ => (none, s.snapshots)

/-- C10: whenever `SaveSnapshot` returns an error — the store is not
open, or the encode/flush/sync of the record fails — the in-memory
snapshot list is unchanged, so subsequent `LastSnapshot()` and
`ListSnapshots()` calls return exactly what they returned before the
failed call. -/
theorem c10_saveSnapshot_error_preserves (s : SnapStore) (snap : Snapshot) (ioErr : Bool)
    (h : (s.saveSnapshot snap ioErr).1.isSome) :
    (s.saveSnapshot snap ioErr).2.snapshots = s.snapshots ∧
    (s.saveSnapshot snap ioErr).2.lastSnapshot = s.lastSnapshot ∧
    (s.saveSnapshot snap ioErr).2.listSnapshots = s.listSnapshots := by
  cases hf : s.file with
  | none => simp [SnapStore.saveSnapshot, hf]
  | some f =>
    cases hio : ioErr with
    | false =>
      exfalso
      simp [SnapStore.saveSnapshot, hf, hio] at h
    | true => simp [SnapStore.saveSnapshot, hf]

/-- c10Store is an open snapshot store already holding one snapshot. -/
def c10Store : SnapStore := ⟨some ⟨false⟩, [⟨3, 1, [1, 2]⟩]⟩

/-- Witness for C10: a failed save (injected I/O error) on `c10Store`
leaves the list, the last snapshot, and the listing unchanged. -/
theorem c10_saveSnapshot_error_preserves_witness :
    (c10Store.saveSnapshot ⟨9, 2, [7]⟩ true).2.snapshots = c10Store.snapshots ∧
    (c10Store.saveSnapshot ⟨9, 2, [7]⟩ true).2.lastSnapshot = c10Store.lastSnapshot ∧
    (c10Store.saveSnapshot ⟨9, 2, [7]⟩ true).2.listSnapshots = c10Store.listSnapshots :=
  c10_saveSnapshot_error_preserves c10Store ⟨9, 2, [7]⟩ true (by decide)

/-- NodeState mirrors the Go `State` enumeration of the Raft node:
`Leader`, `Follower`, `Shutdown` (candidates are followers that
incremented their term). -/
inductive NodeState where
  | leader
  | follower
  | shutdown
deriving DecidableEq, Repr

/-- OperationType mirrors the Go `OperationType`: replicated,
lease-based read-only, linearizable read-only. -/
inductive OperationType where
  | replicated
  | leaseBasedReadOnly
  | linearizableReadOnly
deriving DecidableEq, Repr

/-- Operation is the durable part of the Go `Operation` struct as
recorded in the operation manager's pending set: payload bytes, the
recorded operation type, and the read index.
Modelled from the spec where the struct is concerned: the
`operationManager` type itself is not under `src/`; §4.4 gives its
pending read-only set as operations carrying {readIndex, type,
response sink} (the sink is delivery-only and not modelled). -/
structure Operation where
  bytes : List Nat
  operationType : OperationType
  readIndex : Nat
deriving DecidableEq, Repr

/-- RaftState collects the Go `Raft` struct fields the claims reason
about, together with the in-memory state of the stores the node owns:
the log entry slice, the persisted (term, vote) pair, the saved
snapshots, and the operation manager's pending sets. -/
structure RaftState where
  id : String
  peers : List String
  nodeState : NodeState
  currentTerm : Nat
  votedFor : String
  leaderId : String
  logEntries : List LogEntry
  commitIndex : Nat
  lastApplied : Nat
  lastIncludedIndex : Nat
  lastIncludedTerm : Nat
  nextIdx : List (String × Nat)
  matchIdx : List (String × Nat)
  persistedTerm : Nat
  persistedVote : String
  snapshots : List Snapshot
  pendingReplicated : List Nat
  pendingReadOnly : List Operation
  shouldVerifyQuorum : Bool
  lastContact : Nat
deriving DecidableEq, Repr

/-- RequestVoteRequest mirrors the Go struct. -/
structure RequestVoteRequest where
  candidateID : String
  term : Nat
  lastLogIndex : Nat
  lastLogTerm : Nat
deriving DecidableEq, Repr

/-- RequestVoteResponse mirrors the Go struct. -/
structure RequestVoteResponse where
  term : Nat
  voteGranted : Bool
deriving DecidableEq, Repr

/-- AppendEntriesRequest mirrors the Go struct. -/
structure AppendEntriesRequest where
  term : Nat
  leaderID : String
  prevLogIndex : Nat
  prevLogTerm : Nat
  entries : List LogEntry
  leaderCommit : Nat
deriving DecidableEq, Repr

/-- AppendEntriesResponse mirrors the Go struct, with the conflict
hint index. -/
structure AppendEntriesResponse where
  term : Nat
  success : Bool
  index : Nat
deriving DecidableEq, Repr

/-- InstallSnapshotRequest mirrors the Go struct. -/
structure InstallSnapshotRequest where
  leaderID : String
  term : Nat
  lastIncludedIndex : Nat
  lastIncludedTerm : Nat
  bytes : List Nat
deriving DecidableEq, Repr

/-- InstallSnapshotResponse mirrors the Go struct. -/
structure InstallSnapshotResponse where
  term : Nat
deriving DecidableEq, Repr

/-- HRes is the outcome of an RPC handler: the `errShutdown` error, a
`Fatalf`/runtime-panic termination of the process, or a successor
state together with the filled response. -/
inductive HRes (ρ : Type) where
  | shutdownErr
  | fatal
  | ok (s : RaftState) (resp : ρ)
deriving DecidableEq, Repr

/-- assocGet reads a Go `map[string]uint64`, returning the zero value
for a missing key. -/
def assocGet : List (String × Nat) → String → Nat
  | [], _ => 0
  | (k, v) :: rest, key => if k = key then v else assocGet rest key

/-- assocSet writes a Go `map[string]uint64` entry. -/
def assocSet : List (String × Nat) → String → Nat → List (String × Nat)
  | [], key, val => [(key, val)]
  | (k, v) :: rest, key, val =>
    if k = key then (k, val) :: rest else (k, v) :: assocSet rest key val

/-- hasQuorum is `Raft.hasQuorum`: `count > len(r.peers)/2`, where the
peer map includes the node itself. -/
def hasQuorum (s : RaftState) (count : Nat) : Bool :=
  count > s.peers.length / 2

/-- becomeFollower is `Raft.becomeFollower`: move to the follower
state at the given term, remember the leader, clear the vote, persist
term and vote, cancel all pending operations (`notifyLostLeaderShip`),
and install a fresh operation manager.
Modelled from the spec for the fresh manager's flag: `operationManager`
is not under `src/`; §4.4 makes `shouldVerifyQuorum` true when the next
linearizable submission must verify leadership, which a fresh manager
requires. -/
def becomeFollower (s : RaftState) (leaderID : String) (term : Nat) : RaftState :=
  { s with nodeState := .follower, currentTerm := term, leaderId := leaderID,
           votedFor := "", persistedTerm := term, persistedVote := "",
           pendingReplicated := [], pendingReadOnly := [], shouldVerifyQuorum := true }

/-- becomeCandidate is `Raft.becomeCandidate`: increment the term,
vote for self, persist term and vote. -/
def becomeCandidate (s : RaftState) : RaftState :=
  { s with currentTerm := s.currentTerm + 1, votedFor := s.id,
           persistedTerm := s.currentTerm + 1, persistedVote := s.id }

/-- becomeLeader is `Raft.becomeLeader`: enter the leader state, reset
every peer's nextIndex to lastIndex+1 and matchIndex to 0, append a
NoOp entry at the current term, and install a fresh operation
manager. -/
def becomeLeader (s : RaftState) : RaftState :=
  let s2 := { s with nodeState := NodeState.leader,
                     nextIdx := s.peers.map (fun p => (p, lastIndexOf s.logEntries + 1)),
                     matchIdx := s.peers.map (fun p => (p, 0)) }
  let entry : LogEntry := ⟨nextIndexOf s2.logEntries, s2.currentTerm, 0, [], .noOpEntry⟩
  { s2 with logEntries := s2.logEntries ++ [entry],
            pendingReplicated := [], pendingReadOnly := [], shouldVerifyQuorum := true }

/-- requestVote is the body of `Raft.RequestVote` (receiver side). -/
def requestVote (s : RaftState) (req : RequestVoteRequest) (now : Nat) :
    HRes RequestVoteResponse :=
  if s.nodeState = .shutdown then .shutdownErr
  else
    let resp : RequestVoteResponse := ⟨s.currentTerm, false⟩
    if req.term < s.currentTerm then .ok s resp
    else
      let s2 := if req.term > s.currentTerm then becomeFollower s req.candidateID req.term else s
      let resp := { resp with term := s2.currentTerm }
      if s2.votedFor ≠ "" ∧ s2.votedFor ≠ req.candidateID then .ok s2 resp
      else if req.lastLogTerm < lastTermOf s2.logEntries ∨
          (req.lastLogTerm = lastTermOf s2.logEntries ∧
            lastIndexOf s2.logEntries > req.lastLogIndex) then
        .ok s2 resp
      else
        .ok { s2 with lastContact := now, votedFor := req.candidateID,
                      persistedTerm := s2.currentTerm, persistedVote := req.candidateID }
          { resp with voteGranted := true }

/-- walkBack is the conflict-hint loop of `Raft.AppendEntries`: from
`prevLogIndex - 1`, walk backward while the index exceeds
`lastIncludedIndex` and the local entry carries the conflicting
previous entry's term; return the index the loop stops at (`none`
models the `Fatalf` on a failed `GetEntry`). -/
def walkBack (log : List LogEntry) (lii pterm : Nat) : Nat → Option Nat
  | 0 => some 0
  | i + 1 =>
    if ¬ (i + 1 > lii) then some (i + 1)
    else
      match entriesGetEntry log (i + 1) with
      | .ok e => if e.term ≠ pterm then some (i + 1) else walkBack log lii pterm i
      | _ => none

/-- aeScan is the entry-processing loop of `Raft.AppendEntries`: skip
request entries that already match, truncate at the first conflicting
index and append the remainder, or append the tail once the request
runs past the end of the log.  `none` models the nil-pointer panic on
an ignored `GetEntry` error and the `Fatalf` on a failed truncate. -/
def aeScan (log : List LogEntry) : List LogEntry → Option (List LogEntry)
  | [] => some log
  | e :: rest =>
    if lastIndexOf log < e.index then some (log ++ e :: rest)
    else
      match entriesGetEntry log e.index with
      | .ok ex =>
        if ex.index = e.index ∧ ex.term ≠ e.term then
          match entriesTruncate log e.index with
          | some log2 => some (log2 ++ e :: rest)
          | none => none
        else aeScan log rest
      | _ => none

/-- aeAfterStepDown is the part of `Raft.AppendEntries` that runs once
the term checks and step-down are done: the conflict-resolution
rejections, the entry-processing scan, and the commit-index
advancement. -/
def aeAfterStepDown (s2 : RaftState) (req : AppendEntriesRequest)
    (resp : AppendEntriesResponse) : HRes AppendEntriesResponse :=
  if s2.lastIncludedIndex > req.prevLogIndex then
    .ok s2 { resp with index := s2.lastIncludedIndex + 1 }
  else if nextIndexOf s2.logEntries ≤ req.prevLogIndex then
    .ok s2 { resp with index := nextIndexOf s2.logEntries }
  else if s2.lastIncludedIndex = req.prevLogIndex ∧ s2.lastIncludedTerm ≠ req.prevLogTerm then
    .ok s2 { resp with index := s2.lastIncludedIndex }
  else
    match (if s2.lastIncludedIndex < req.prevLogIndex then
             match entriesGetEntry s2.logEntries req.prevLogIndex with
             | .ok prevEntry =>
               if prevEntry.term ≠ req.prevLogTerm then
                 match walkBack s2.logEntries s2.lastIncludedIndex prevEntry.term
                     (req.prevLogIndex - 1) with
                 | some idx => some (some idx)
                 | none => none
               else some none
             | _ => none
           else some none) with
    | none => .fatal
    | some (some idx) => .ok s2 { resp with index := idx + 1 }
    | some none =>
      match aeScan s2.logEntries req.entries with
      | none => .fatal
      | some newLog =>
        let s3 := { s2 with logEntries := newLog }
        let s4 := if req.leaderCommit > s3.commitIndex then
                    { s3 with commitIndex := min req.leaderCommit (lastIndexOf s3.logEntries) }
                  else s3
        .ok s4 { resp with success := true }

/-- appendEntriesH is the body of `Raft.AppendEntries` (receiver
side). -/
def appendEntriesH (s : RaftState) (req : AppendEntriesRequest) (now : Nat) :
    HRes AppendEntriesResponse :=
  if s.nodeState = .shutdown then .shutdownErr
  else
    let resp : AppendEntriesResponse := ⟨s.currentTerm, false, 0⟩
    if req.term < s.currentTerm then .ok s resp
    else
      let s1 := { s with lastContact := now, leaderId := req.leaderID }
      let s2 := if req.term > s1.currentTerm then becomeFollower s1 req.leaderID req.term else s1
      aeAfterStepDown s2 req { resp with term := s2.currentTerm }

/-- isAfterStepDown is the part of `Raft.InstallSnapshot` that runs
once the term checks and step-down are done: the no-new-information
check, the snapshot save, the frontier advance, and the log
discard-or-compact; the state-machine restore is external and always
modelled as succeeding. -/
def isAfterStepDown (s2 : RaftState) (req : InstallSnapshotRequest)
    (resp : InstallSnapshotResponse) : HRes InstallSnapshotResponse :=
  if s2.lastIncludedIndex ≥ req.lastIncludedIndex ∨
      s2.commitIndex ≥ req.lastIncludedIndex then
    .ok s2 resp
  else
    match (if entriesContains s2.logEntries req.lastIncludedIndex then
             match entriesGetEntry s2.logEntries req.lastIncludedIndex with
             | .ok e => some (some e)
             | .indexErr => some none
             | _ => none
           else some none) with
    | none => .fatal
    | some entryOpt =>
      let snap : Snapshot := ⟨req.lastIncludedIndex, req.lastIncludedTerm, req.bytes⟩
      let s3 := { s2 with snapshots := s2.snapshots ++ [snap],
                          lastIncludedIndex := req.lastIncludedIndex,
                          lastIncludedTerm := req.lastIncludedTerm,
                          commitIndex := req.lastIncludedIndex,
                          lastApplied := req.lastIncludedIndex }
      match entryOpt with
      | none =>
        .ok { s3 with
                logEntries := entriesDiscard s3.lastIncludedIndex s3.lastIncludedTerm } resp
      | some entry =>
        if entry.term ≠ req.lastIncludedTerm then
          .ok { s3 with
                  logEntries := entriesDiscard s3.lastIncludedIndex s3.lastIncludedTerm } resp
        else
          match entriesCompact s3.logEntries req.lastIncludedIndex with
          | none => .fatal
          | some newLog => .ok { s3 with logEntries := newLog } resp

/-- installSnapshotH is the body of `Raft.InstallSnapshot` (receiver
side). -/
def installSnapshotH (s : RaftState) (req : InstallSnapshotRequest) (now : Nat) :
    HRes InstallSnapshotResponse :=
  if s.nodeState = .shutdown then .shutdownErr
  else
    let resp : InstallSnapshotResponse := ⟨s.currentTerm⟩
    if s.currentTerm > req.term then .ok s resp
    else
      let stepDown := s.currentTerm < req.term
      let s2 := if stepDown then becomeFollower s req.leaderID req.term else s
      let resp := if stepDown then (⟨req.term⟩ : InstallSnapshotResponse) else resp
      isAfterStepDown { s2 with lastContact := now } req resp

/-- matchCount is the quorum count of `Raft.commitLoop` for one index:
the node itself plus every other peer whose matchIndex has reached the
index. -/
def matchCount (s : RaftState) (index : Nat) : Nat :=
  1 + (s.matchIdx.filter (fun kv => decide (kv.1 ≠ s.id ∧ kv.2 ≥ index))).length

/-- commitStep is the body of one iteration of the scan in
`Raft.commitLoop`: skip the index when the entry's term differs from
the current term, advance commitIndex to the index when a quorum of
matchIndex values has reached it, and crash (`none`) when the entry
cannot be fetched. -/
def commitStep (s : RaftState) (index : Nat) : Option RaftState :=
  match entriesGetEntry s.logEntries index with
  | .ok e =>
    if e.term ≠ s.currentTerm then some s
    else if hasQuorum s (matchCount s index) then some { s with commitIndex := index }
    else some s
  | _ => none

/-- commitScanGo folds `commitStep` over the scanned indices. -/
def commitScanGo : RaftState → List Nat → Option RaftState
  | s, [] => some s
  | s, i :: rest =>
    match commitStep s i with
    | some s2 => commitScanGo s2 rest
    | none => none

/-- commitScan is one wakeup of `Raft.commitLoop`: followers do
nothing; a leader scans the indices from `commitIndex + 1` through
`log.LastIndex()`. -/
def commitScan (s : RaftState) : Option RaftState :=
  if s.nodeState ≠ .leader then some s
  else commitScanGo s (List.range' (s.commitIndex + 1) (lastIndexOf s.logEntries - s.commitIndex))

/-- takeSnapshot is `Raft.takeSnapshot`: no-op unless lastApplied has
passed the last included index; otherwise fetch the boundary entry,
record the snapshot (with the state-machine bytes supplied
externally), advance the snapshot frontier, and compact the log
through it.  `none` models the `Fatalf` paths. -/
def takeSnapshot (s : RaftState) (snapBytes : List Nat) : Option RaftState :=
  if s.lastApplied ≤ s.lastIncludedIndex then some s
  else
    match entriesGetEntry s.logEntries s.lastApplied with
    | .ok e =>
      let s2 := { s with lastIncludedIndex := e.index, lastIncludedTerm := e.term,
                         snapshots := s.snapshots ++ [(⟨e.index, e.term, snapBytes⟩ : Snapshot)] }
      match entriesCompact s2.logEntries s2.lastIncludedIndex with
      | none => none
      | some newLog => some { s2 with logEntries := newLog }
    | _ => none

/-- applyStep is the body of one iteration of the inner loop of
`Raft.applyLoop` (taken atomically: the concurrent-snapshot re-check of
`lastApplied` never fires): fetch the entry after `lastApplied`;
NoOp entries only advance `lastApplied`; otherwise drop the pending
replicated sink for the index, apply the operation to the external
state machine, advance `lastApplied`, and take a snapshot when the
state machine requests one (`needSnap`). -/
def applyStep (s : RaftState) (needSnap : Bool) (snapBytes : List Nat) : Option RaftState :=
  if s.lastApplied < s.commitIndex then
    match entriesGetEntry s.logEntries (s.lastApplied + 1) with
    | .ok entry =>
      if entry.entryType = .noOpEntry then some { s with lastApplied := s.lastApplied + 1 }
      else
        let s2 := { s with pendingReplicated :=
            s.pendingReplicated.filter (fun i => decide (i ≠ entry.index)) }
        let s3 := { s2 with lastApplied := s2.lastApplied + 1 }
        if needSnap then takeSnapshot s3 snapBytes else some s3
    | _ => none
  else some s

/-- submitReplicatedOperation is the state effect of
`Raft.submitReplicatedOperation`: a non-leader only resolves the
future; a leader appends an operation entry at `(nextIndex,
currentTerm)` and registers the pending sink under that index. -/
def submitReplicatedOperation (s : RaftState) (bytes : List Nat) : RaftState :=
  if s.nodeState ≠ .leader then s
  else
    let entry : LogEntry := ⟨nextIndexOf s.logEntries, s.currentTerm, 0, bytes, .operationEntry⟩
    { s with logEntries := s.logEntries ++ [entry],
             pendingReplicated := s.pendingReplicated ++ [entry.index] }

/-- submitReadOnlyOperation is the state effect of
`Raft.submitReadOnlyOperation`: a non-leader only resolves the future;
a leader records a pending read-only operation — whose recorded type
the code fixes to `LeaseBasedReadOnly` regardless of the caller's
`readOnlyType` argument — at readIndex = commitIndex, and keys the
quorum-verification trigger off the argument. -/
def submitReadOnlyOperation (s : RaftState) (bytes : List Nat) (readOnlyType : OperationType) :
    RaftState :=
  if s.nodeState ≠ .leader then s
  else
    let op : Operation := ⟨bytes, .leaseBasedReadOnly, s.commitIndex⟩
    let s2 := { s with pendingReadOnly := s.pendingReadOnly ++ [op] }
    if readOnlyType = .linearizableReadOnly ∧ s2.shouldVerifyQuorum then
      { s2 with shouldVerifyQuorum := false }
    else s2

/-- collectLoop is the entry-collection loop of
`Raft.sendAppendEntries`: walk the indices, stop early if compaction
overtook the index, crash on a failed fetch, and gather the entries in
order. -/
def collectLoop (s : RaftState) : List Nat → Option (List LogEntry)
  | [] => some []
  | i :: rest =>
    if i ≤ s.lastIncludedIndex then some []
    else
      match entriesGetEntry s.logEntries i with
      | .ok e =>
        match collectLoop s rest with
        | some l => some (e :: l)
        | none => none
      | _ => none

/-- collectEntries gathers the entries a leader includes in an
AppendEntries request for a peer whose next index is `nextIndex`:
the loop runs over `[nextIndex, log.NextIndex())`. -/
def collectEntries (s : RaftState) (nextIndex : Nat) : Option (List LogEntry) :=
  collectLoop s (List.range' nextIndex (nextIndexOf s.logEntries - nextIndex))

/-- minMaxEntriesPerRPC mirrors the option bound in `options.go`. -/
def minMaxEntriesPerRPC : Nat := 50

/-- maxMaxEntriesPerRPC mirrors the option bound in `options.go`. -/
def maxMaxEntriesPerRPC : Nat := 500

/-- defaultMaxEntriesPerRPC mirrors the default in `options.go`. -/
def defaultMaxEntriesPerRPC : Nat := 100

/-- withMaxEntriesPerRPC is the validation in `WithMaxEntriesPerRPC`:
the configured value when it lies within bounds, `none` for the
error. -/
def withMaxEntriesPerRPC (n : Nat) : Option Nat :=
  if n < minMaxEntriesPerRPC ∨ n > maxMaxEntriesPerRPC then none else some n

/-- requestVote_up_to_date shows that the current revision's
`Raft.RequestVote` obeys the up-to-date rule: whenever a running
receiver handles a request whose term is not below its current term
and it has not already voted for a different candidate (a higher-term
request clears the vote by stepping down first), the vote is rejected
exactly when `request.lastLogTerm < log.lastTerm`, or the last terms
are equal and `log.lastIndex > request.lastLogIndex`; otherwise the
vote is granted, `votedFor` is set to the candidate and persisted
together with the current term.  The earlier revision's handler
violates this rule; see the evaluation below. -/
theorem c1_requestVote_up_to_date (s : RaftState) (req : RequestVoteRequest) (now : Nat)
    (hs : s.nodeState ≠ .shutdown)
    (hterm : s.currentTerm ≤ req.term)
    (hvote : s.currentTerm < req.term ∨ s.votedFor = "" ∨ s.votedFor = req.candidateID) :
    ∃ s2 resp, requestVote s req now = .ok s2 resp ∧
      (resp.voteGranted = false ↔
        (req.lastLogTerm < lastTermOf s.logEntries ∨
          (req.lastLogTerm = lastTermOf s.logEntries ∧
            lastIndexOf s.logEntries > req.lastLogIndex))) ∧
      (resp.voteGranted = true →
        s2.votedFor = req.candidateID ∧ s2.persistedVote = req.candidateID ∧
        s2.persistedTerm = s2.currentTerm) := by
  simp only [requestVote, hs, if_false]
  rw [if_neg (by omega : ¬ req.term < s.currentTerm)]
  by_cases hgt : req.term > s.currentTerm
  · rw [if_pos hgt]
    have hvf : ¬ ((becomeFollower s req.candidateID req.term).votedFor ≠ "" ∧
        (becomeFollower s req.candidateID req.term).votedFor ≠ req.candidateID) := by
      simp [becomeFollower]
    rw [if_neg hvf]
    have hlog : (becomeFollower s req.candidateID req.term).logEntries = s.logEntries := rfl
    by_cases hrej : req.lastLogTerm < lastTermOf s.logEntries ∨
        (req.lastLogTerm = lastTermOf s.logEntries ∧ lastIndexOf s.logEntries > req.lastLogIndex)
    · rw [hlog, if_pos hrej]
      refine ⟨_, _, rfl, ?_, ?_⟩
      · simpa using hrej
      · intro hcontra
        simp at hcontra
    · rw [hlog, if_neg hrej]
      refine ⟨_, _, rfl, ?_, ?_⟩
      · simpa using hrej
      · intro _
        exact ⟨rfl, rfl, rfl⟩
  · rw [if_neg hgt]
    have hvf : ¬ (s.votedFor ≠ "" ∧ s.votedFor ≠ req.candidateID) := by
      rcases hvote with h1 | h2 | h3
      · omega
      · simp [h2]
      · simp [h3]
    rw [if_neg hvf]
    by_cases hrej : req.lastLogTerm < lastTermOf s.logEntries ∨
        (req.lastLogTerm = lastTermOf s.logEntries ∧ lastIndexOf s.logEntries > req.lastLogIndex)
    · rw [if_pos hrej]
      refine ⟨_, _, rfl, ?_, ?_⟩
      · simpa using hrej
      · intro hcontra
        simp at hcontra
    · rw [if_neg hrej]
      refine ⟨_, _, rfl, ?_, ?_⟩
      · simpa using hrej
      · intro _
        exact ⟨rfl, rfl, rfl⟩

/-- c1State is a running follower at term 1 with an empty vote and a
log ending at (index 2, term 1). -/
def c1State : RaftState :=
  ⟨"A", ["A", "B", "C"], .follower, 1, "", "", [⟨0, 0, 0, [], .noOpEntry⟩, mkEntry 1 1, mkEntry 2 1],
    0, 0, 0, 0, [("A", 0), ("B", 0), ("C", 0)], [("A", 0), ("B", 0), ("C", 0)],
    1, "", [], [], [], true, 0⟩

/-- Concrete instantiation of `c1_requestVote_up_to_date`: candidate
"B" at term 2 with last log (2, 1) ties `c1State`'s log, so the
current revision grants and persists the vote. -/
theorem c1_requestVote_up_to_date_witness :
    c1State.nodeState ≠ .shutdown ∧ c1State.currentTerm ≤ 2 ∧
    ∃ s2 resp, requestVote c1State ⟨"B", 2, 2, 1⟩ 5 = .ok s2 resp ∧
      (resp.voteGranted = false ↔
        ((1 : Nat) < lastTermOf c1State.logEntries ∨
          ((1 : Nat) = lastTermOf c1State.logEntries ∧
            lastIndexOf c1State.logEntries > 2))) ∧
      (resp.voteGranted = true →
        s2.votedFor = "B" ∧ s2.persistedVote = "B" ∧ s2.persistedTerm = s2.currentTerm) := by
  refine ⟨by decide, by decide, ?_⟩
  have h := c1_requestVote_up_to_date c1State ⟨"B", 2, 2, 1⟩ 5 (by decide) (by decide)
    (Or.inl (by decide))
  simpa using h

/-- NodeStateV4 mirrors the earlier revision's `State` enumeration
(part_004), which still has a distinct candidate state. -/
inductive NodeStateV4 where
  | leader
  | follower
  | candidate
  | shutdown
deriving DecidableEq, Repr

/-- RaftV4State carries the fields of the earlier revision's `Raft`
struct (part_004) that its `requestVote` reads or writes, with the
key-value `Storage` modelled by the persisted (term, vote) pair. -/
structure RaftV4State where
  id : String
  nodeState : NodeStateV4
  currentTerm : Nat
  votedFor : String
  logEntries : List LogEntry
  persistedTerm : Nat
  persistedVote : String
deriving DecidableEq, Repr

/-- setCurrentTermV4 is the earlier revision's `setCurrentTerm`:
persist the term under the "currentTerm" key, then update memory. -/
def setCurrentTermV4 (r : RaftV4State) (term : Nat) : RaftV4State :=
  { r with persistedTerm := term, currentTerm := term }

/-- setVotedForV4 is the earlier revision's `setVotedFor`: persist the
vote under the "votedFor" key, then update memory. -/
def setVotedForV4 (r : RaftV4State) (v : String) : RaftV4State :=
  { r with persistedVote := v, votedFor := v }

/-- becomeFollowerV4 is the earlier revision's `becomeFollower`:
persist and set the term, clear the in-memory vote, enter the follower
state. -/
def becomeFollowerV4 (r : RaftV4State) (term : Nat) : RaftV4State :=
  { setCurrentTermV4 r term with votedFor := "", nodeState := .follower }

/-- requestVoteV4 is the body of the earlier revision's `requestVote`
(part_004): no shutdown check, and its up-to-date check compares the
request's term — not its last log term — against the receiver's last
log term. -/
def requestVoteV4 (r : RaftV4State) (req : RequestVoteRequest) :
    RaftV4State × RequestVoteResponse :=
  let resp : RequestVoteResponse := ⟨r.currentTerm, false⟩
  if req.term < r.currentTerm then (r, resp)
  else
    let r2 := if req.term > r.currentTerm then becomeFollowerV4 r req.term else r
    let resp := if req.term > r.currentTerm then { resp with term := r2.currentTerm } else resp
    if r2.votedFor ≠ "" ∧ r2.votedFor ≠ req.candidateID then (r2, resp)
    else if req.term < lastTermOf r2.logEntries ∨
        (req.lastLogTerm = lastTermOf r2.logEntries ∧
          lastIndexOf r2.logEntries > req.lastLogIndex) then
      (r2, resp)
    else
      (setVotedForV4 r2 req.candidateID, { resp with voteGranted := true })

/-- c1V4State is an earlier-revision receiver at term 1 with an empty
vote whose log ends at (index 2, term 1). -/
def c1V4State : RaftV4State :=
  ⟨"A", .follower, 1, "", [⟨0, 0, 0, [], .noOpEntry⟩, mkEntry 1 1, mkEntry 2 1], 1, ""⟩

/-- C1 evaluation: the claim's cited sources include the earlier
revision's `requestVote` (part_004), whose up-to-date check compares
the request's term — not `request.lastLogTerm` — against
`log.lastTerm` (the one-revision deviation spec §9 flags and fixes as
`lastLogTerm` per Raft).  On `c1V4State` the request
{candidateID "B", term 2, lastLogIndex 0, lastLogTerm 0} must be
rejected by the claim's rule, since its lastLogTerm 0 is below the
receiver's lastTerm 1 — yet the code grants the vote and records
votedFor = "B".  The current revision's handler satisfies the rule
(`c1_requestVote_up_to_date` above). -/
theorem c1_requestVoteV4_grants_stale_log :
    (0 : Nat) < lastTermOf c1V4State.logEntries ∧
    (requestVoteV4 c1V4State ⟨"B", 2, 0, 0⟩).2.voteGranted = true ∧
    (requestVoteV4 c1V4State ⟨"B", 2, 0, 0⟩).1.votedFor = "B" ∧
    (requestVoteV4 c1V4State ⟨"B", 2, 0, 0⟩).1.persistedVote = "B" := by
  decide

/-- C2: in every iteration of the leader's commit scan, commitIndex is
either left unchanged or advanced to the scanned index, and an advance
happens only when the log entry at that index carries the leader's
current term and a strict majority of the cluster (the leader plus the
peers whose matchIndex has reached the index) agrees on it. -/
theorem c2_commitStep_term_guard (s : RaftState) (i : Nat) (s2 : RaftState)
    (h : commitStep s i = some s2) :
    s2.commitIndex = s.commitIndex ∨
    (s2.commitIndex = i ∧
      (∃ e, entriesGetEntry s.logEntries i = .ok e ∧ e.term = s.currentTerm) ∧
      hasQuorum s (matchCount s i) = true) := by
  cases hge : entriesGetEntry s.logEntries i with
  | ok e =>
    simp only [commitStep, hge] at h
    by_cases ht : e.term ≠ s.currentTerm
    · rw [if_pos ht] at h
      left
      cases h
      rfl
    · rw [if_neg ht] at h
      by_cases hq : hasQuorum s (matchCount s i) = true
      · rw [if_pos hq] at h
        right
        cases h
        exact ⟨rfl, ⟨e, rfl, by omega⟩, hq⟩
      · rw [if_neg hq] at h
        left
        cases h
        rfl
  | notOpen =>
    simp only [commitStep, hge] at h
    exact Option.noConfusion h
  | indexErr =>
    simp only [commitStep, hge] at h
    exact Option.noConfusion h
  | outOfRange =>
    simp only [commitStep, hge] at h
    exact Option.noConfusion h

/-- c2State is a leader at term 1 whose NoOp entry at index 1 has been
matched by both followers. -/
def c2State : RaftState :=
  ⟨"A", ["A", "B", "C"], .leader, 1, "A", "A", [⟨0, 0, 0, [], .noOpEntry⟩, ⟨1, 1, 0, [], .noOpEntry⟩],
    0, 0, 0, 0, [("A", 2), ("B", 2), ("C", 2)], [("A", 0), ("B", 1), ("C", 1)],
    1, "A", [], [], [], true, 0⟩

/-- Witness for C2: scanning index 1 on `c2State` advances commitIndex
to 1, and the theorem certifies the entry carries the current term and
has quorum. -/
theorem c2_commitStep_term_guard_witness :
    ({ c2State with commitIndex := 1 } : RaftState).commitIndex = c2State.commitIndex ∨
    (({ c2State with commitIndex := 1 } : RaftState).commitIndex = 1 ∧
      (∃ e, entriesGetEntry c2State.logEntries 1 = .ok e ∧ e.term = c2State.currentTerm) ∧
      hasQuorum c2State (matchCount c2State 1) = true) :=
  c2_commitStep_term_guard c2State 1 { c2State with commitIndex := 1 } (by decide)

/-- c8State is a leader at term 3 with commitIndex 2 and no pending
read-only operations. -/
def c8State : RaftState :=
  ⟨"A", ["A", "B", "C"], .leader, 3, "A", "A", [⟨0, 0, 0, [], .noOpEntry⟩, mkEntry 1 3, mkEntry 2 3],
    2, 2, 0, 0, [("A", 3), ("B", 3), ("C", 3)], [("A", 0), ("B", 2), ("C", 2)],
    3, "A", [], [], [], true, 0⟩

/-- C8 evaluation: submitting a read-only operation with the
caller-supplied type `LinearizableReadOnly` records a pending operation
whose stored type is `LeaseBasedReadOnly` — not the caller's type, as
the claim (and the spec's reading of the operation manager) requires. -/
theorem c8_stored_type_is_lease_based :
    (submitReadOnlyOperation c8State [1] .linearizableReadOnly).pendingReadOnly
        = [⟨[1], .leaseBasedReadOnly, 2⟩] ∧
    OperationType.leaseBasedReadOnly ≠ OperationType.linearizableReadOnly := by
  refine ⟨?_, by decide⟩
  rfl

/-- c9Entries is a log of a sentinel plus 51 live entries (indices 1
through 51) at term 1. -/
def c9Entries : List LogEntry :=
  ⟨0, 0, 0, [], .noOpEntry⟩ :: (List.range' 1 51).map (fun i => mkEntry i 1)

/-- c9State is a two-node leader whose peer "B" still needs every live
entry: nextIndex["B"] = 1 while the log extends to index 51. -/
def c9State : RaftState :=
  ⟨"A", ["A", "B"], .leader, 1, "A", "A", c9Entries,
    0, 0, 0, 0, [("A", 52), ("B", 1)], [("A", 0), ("B", 0)],
    1, "A", [], [], [], true, 0⟩

/-- C9 evaluation: `WithMaxEntriesPerRPC(50)` is a valid configuration,
yet the entry-collection loop of `sendAppendEntries` gathers all 51
pending entries for peer "B" — the code never consults
`maxEntriesPerRPC`, so the batch exceeds the configured cap that the
claim (and the option's documentation) promises. -/
theorem c9_no_batch_cap :
    withMaxEntriesPerRPC 50 = some 50 ∧
    ∃ l, collectEntries c9State (assocGet c9State.nextIdx "B") = some l ∧
      l.length = 51 ∧ 50 < l.length :=
  ⟨rfl, _, rfl, rfl, by decide⟩

/-- entriesStrictMono states that entry indices strictly increase
along the log (the contiguity invariant weakened to what the
inequality claims need). -/
def entriesStrictMono (l : List LogEntry) : Prop :=
  List.Pairwise (fun a b => a.index < b.index) l

lemma firstIndexOf_cons (a : LogEntry) (l : List LogEntry) :
    firstIndexOf (a :: l) = a.index := rfl

lemma mono_mem_le_last {l : List LogEntry} (h : entriesStrictMono l) {e : LogEntry}
    (he : e ∈ l) : e.index ≤ lastIndexOf l := by
  induction l with
  | nil => cases he
  | cons a rest ih =>
    rcases List.pairwise_cons.mp h with ⟨hall, htail⟩
    cases rest with
    | nil =>
      rcases List.mem_cons.mp he with he | he
      · subst he
        simp [lastIndexOf]
      · cases he
    | cons b rest2 =>
      have hlast : lastIndexOf (a :: b :: rest2) = lastIndexOf (b :: rest2) := by
        simp [lastIndexOf, List.getLast?]
      rw [hlast]
      rcases List.mem_cons.mp he with he | he
      · subst he
        have hb : (b :: rest2).getLast? = some ((b :: rest2).getLast (by simp)) :=
          List.getLast?_eq_getLast _ _
        have hmem : (b :: rest2).getLast (by simp) ∈ b :: rest2 := List.getLast_mem _
        have := hall _ hmem
        simp only [lastIndexOf, hb]
        omega
      · exact ih htail he

lemma mono_cons_le_last {e : LogEntry} {rest : List LogEntry}
    (h : entriesStrictMono (e :: rest)) : e.index ≤ lastIndexOf (e :: rest) :=
  mono_mem_le_last h (List.mem_cons_self e rest)

lemma mono_first_le_last {l : List LogEntry} (h : entriesStrictMono l) (hne : l ≠ []) :
    firstIndexOf l ≤ lastIndexOf l := by
  cases l with
  | nil => exact absurd rfl hne
  | cons a rest =>
    have : a.index ≤ lastIndexOf (a :: rest) := mono_cons_le_last h
    simpa [firstIndexOf] using this

lemma mono_gap {l : List LogEntry} (h : entriesStrictMono l) :
    ∀ (p : Nat) (hp : p < l.length), firstIndexOf l + p ≤ (l.get ⟨p, hp⟩).index := by
  induction l with
  | nil => intro p hp; simp at hp
  | cons a rest ih =>
    intro p hp
    rcases List.pairwise_cons.mp h with ⟨hall, htail⟩
    cases p with
    | zero =>
      rw [firstIndexOf_cons]
      simp [List.get]
    | succ q =>
      have hq : q < rest.length := by
        simp only [List.length_cons] at hp
        omega
      have hih := ih htail q hq
      have hget : (a :: rest).get ⟨q + 1, hp⟩ = rest.get ⟨q, hq⟩ := rfl
      rw [hget, firstIndexOf_cons]
      cases rest with
      | nil => simp at hq
      | cons b rest2 =>
        rw [firstIndexOf_cons] at hih
        have hab : a.index < b.index := hall b (List.mem_cons_self b rest2)
        omega

lemma mono_last_eq_get {l : List LogEntry} (hne : l ≠ []) :
    ∃ hp : l.length - 1 < l.length,
      lastIndexOf l = (l.get ⟨l.length - 1, hp⟩).index := by
  have hlen : 0 < l.length := List.length_pos.mpr hne
  refine ⟨by omega, ?_⟩
  have hget : l.getLast? = l[l.length - 1]? := List.getLast?_eq_getElem? l
  have hg : l[l.length - 1]? = some (l.get ⟨l.length - 1, by omega⟩) := by
    rw [List.getElem?_eq_getElem (by omega)]
    rfl
  simp only [lastIndexOf, hget, hg]

lemma lastIndexOf_append_cons (l : List LogEntry) (e : LogEntry) (rest : List LogEntry) :
    lastIndexOf (l ++ e :: rest) = lastIndexOf (e :: rest) := by
  have h : (l ++ e :: rest).getLast? = (e :: rest).getLast? := by
    rw [List.getLast?_append_of_ne_nil]
    simp
  simp only [lastIndexOf, h]

lemma lastIndexOf_drop {l : List LogEntry} {pos : Nat} (hpos : pos < l.length) :
    lastIndexOf (l.drop pos) = lastIndexOf l := by
  have hlen : (l.drop pos).length = l.length - pos := List.length_drop pos l
  have hne : l.drop pos ≠ [] := by
    intro hcon
    have := congrArg List.length hcon
    simp [hlen] at this
    omega
  have hne2 : l ≠ [] := by
    intro hcon
    subst hcon
    simp at hpos
  obtain ⟨hp1, he1⟩ := mono_last_eq_get hne
  obtain ⟨hp2, he2⟩ := mono_last_eq_get hne2
  rw [he1, he2, List.get_eq_getElem, List.get_eq_getElem, List.getElem_drop]
  have hidx : pos + ((l.drop pos).length - 1) = l.length - 1 := by
    rw [hlen]
    omega
  simp only [hidx]

lemma map_index_recomputeOffsets (l : List LogEntry) (off : Int) :
    (recomputeOffsets l off).map LogEntry.index = l.map LogEntry.index := by
  induction l generalizing off with
  | nil => rfl
  | cons e rest ih => simp [recomputeOffsets, ih]

lemma lastIndexOf_eq_of_map_index {l1 l2 : List LogEntry}
    (h : l1.map LogEntry.index = l2.map LogEntry.index) :
    lastIndexOf l1 = lastIndexOf l2 := by
  have h1 : (l1.map LogEntry.index).getLast? = (l2.map LogEntry.index).getLast? := by rw [h]
  rw [List.getLast?_map, List.getLast?_map] at h1
  simp only [lastIndexOf]
  cases hl1 : l1.getLast? with
  | none => cases hl2 : l2.getLast? with
    | none => rfl
    | some e2 =>
      rw [hl1, hl2] at h1
      exact Option.noConfusion h1
  | some e1 => cases hl2 : l2.getLast? with
    | none =>
      rw [hl1, hl2] at h1
      exact Option.noConfusion h1
    | some e2 =>
      rw [hl1, hl2] at h1
      simp only [Option.map_some', Option.some.injEq] at h1
      exact h1

lemma firstIndexOf_eq_of_map_index {l1 l2 : List LogEntry}
    (h : l1.map LogEntry.index = l2.map LogEntry.index) :
    firstIndexOf l1 = firstIndexOf l2 := by
  have h1 : (l1.map LogEntry.index).head? = (l2.map LogEntry.index).head? := by rw [h]
  rw [List.head?_map, List.head?_map] at h1
  simp only [firstIndexOf]
  cases hl1 : l1.head? with
  | none => cases hl2 : l2.head? with
    | none => rfl
    | some e2 =>
      rw [hl1, hl2] at h1
      exact Option.noConfusion h1
  | some e1 => cases hl2 : l2.head? with
    | none =>
      rw [hl1, hl2] at h1
      exact Option.noConfusion h1
    | some e2 =>
      rw [hl1, hl2] at h1
      simp only [Option.map_some', Option.some.injEq] at h1
      exact h1

lemma mono_of_map_index {l1 l2 : List LogEntry}
    (h : l1.map LogEntry.index = l2.map LogEntry.index)
    (hm : entriesStrictMono l1) : entriesStrictMono l2 := by
  have h1 : List.Pairwise (· < ·) (l1.map LogEntry.index) := by
    rw [List.pairwise_map]
    exact hm
  rw [h, List.pairwise_map] at h1
  exact h1

lemma ne_nil_of_map_index {l1 l2 : List LogEntry}
    (h : l1.map LogEntry.index = l2.map LogEntry.index) (hne : l1 ≠ []) : l2 ≠ [] := by
  intro hcon
  subst hcon
  simp only [List.map_nil, List.map_eq_nil_iff] at h
  exact hne h

lemma mono_take {l : List LogEntry} (h : entriesStrictMono l) (k : Nat) :
    entriesStrictMono (l.take k) :=
  h.sublist (List.take_sublist k l)

lemma mono_drop {l : List LogEntry} (h : entriesStrictMono l) (k : Nat) :
    entriesStrictMono (l.drop k) :=
  h.sublist (List.drop_sublist k l)

lemma entriesGetEntry_ok {l : List LogEntry} {i : Nat} {ex : LogEntry}
    (h : entriesGetEntry l i = .ok ex) :
    l.get? (sub64 i (firstIndexOf l)) = some ex := by
  simp only [entriesGetEntry] at h
  split at h
  · exact GetEntryRes.noConfusion h
  · split at h
    · rename_i e heq
      cases h
      exact heq
    · exact GetEntryRes.noConfusion h

lemma entriesTruncate_some {l : List LogEntry} {i : Nat} {l2 : List LogEntry}
    (h : entriesTruncate l i = some l2) :
    l2 = l.take (sub64 i (firstIndexOf l)) ∧ sub64 i (firstIndexOf l) ≠ 0 ∧
      sub64 i (firstIndexOf l) < l.length := by
  simp only [entriesTruncate] at h
  split at h
  · exact Option.noConfusion h
  · rename_i hcond
    push_neg at hcond
    cases h
    exact ⟨rfl, hcond.1, by omega⟩

lemma entriesCompact_some {l : List LogEntry} {i : Nat} {l2 : List LogEntry}
    (h : entriesCompact l i = some l2) :
    l2.map LogEntry.index = (l.drop (sub64 i (firstIndexOf l))).map LogEntry.index ∧
      sub64 i (firstIndexOf l) ≠ 0 ∧ sub64 i (firstIndexOf l) < l.length := by
  simp only [entriesCompact] at h
  split at h
  · exact Option.noConfusion h
  · rename_i hcond
    push_neg at hcond
    cases h
    exact ⟨map_index_recomputeOffsets _ _, hcond.1, by omega⟩

lemma aeScan_spec (commitIdx : Nat) :
    ∀ (reqEntries log log2 : List LogEntry),
      entriesStrictMono log → log ≠ [] → commitIdx ≤ lastIndexOf log →
      entriesStrictMono reqEntries →
      (∀ e ∈ reqEntries, e.index ≤ commitIdx →
        ∀ ex, entriesGetEntry log e.index = .ok ex → ex.index = e.index → ex.term = e.term) →
      aeScan log reqEntries = some log2 →
      entriesStrictMono log2 ∧ log2 ≠ [] ∧ commitIdx ≤ lastIndexOf log2 := by
  intro reqEntries
  induction reqEntries with
  | nil =>
    intro log log2 hm hne hci _ _ h
    simp only [aeScan] at h
    cases h
    exact ⟨hm, hne, hci⟩
  | cons e rest ih =>
    intro log log2 hm hne hci hreqm hnoconf h
    rcases List.pairwise_cons.mp hreqm with ⟨hhead, htailm⟩
    have hble : ∀ b ∈ e :: rest, e.index ≤ b.index := by
      intro b hb
      rcases List.mem_cons.mp hb with hb | hb
      · subst hb; exact le_refl _
      · exact le_of_lt (hhead b hb)
    simp only [aeScan] at h
    by_cases hlt : lastIndexOf log < e.index
    · rw [if_pos hlt] at h
      cases h
      refine ⟨?_, by simp, ?_⟩
      · rw [entriesStrictMono, List.pairwise_append]
        refine ⟨hm, hreqm, ?_⟩
        intro a ha b hb
        have h1 : a.index ≤ lastIndexOf log := mono_mem_le_last hm ha
        have h2 : e.index ≤ b.index := hble b hb
        omega
      · rw [lastIndexOf_append_cons]
        have h2 : e.index ≤ lastIndexOf (e :: rest) := mono_cons_le_last hreqm
        omega
    · rw [if_neg hlt] at h
      cases hge : entriesGetEntry log e.index with
      | ok ex =>
        simp only [hge] at h
        by_cases hconf : ex.index = e.index ∧ ex.term ≠ e.term
        · rw [if_pos hconf] at h
          cases htr : entriesTruncate log e.index with
          | none => rw [htr] at h; exact Option.noConfusion h
          | some ltr =>
            rw [htr] at h
            cases h
            obtain ⟨hteq, hpos0, hposlen⟩ := entriesTruncate_some htr
            have hci2 : commitIdx < e.index := by
              by_contra hcon
              push_neg at hcon
              have := hnoconf e (List.mem_cons_self e rest) hcon ex hge hconf.1
              exact hconf.2 this
            have hexgu : log.get? (sub64 e.index (firstIndexOf log)) = some ex :=
              entriesGetEntry_ok hge
            have hexg : log.get ⟨sub64 e.index (firstIndexOf log), hposlen⟩ = ex := by
              have := List.get?_eq_get hposlen
              rw [this] at hexgu
              exact Option.some.inj hexgu
            refine ⟨?_, by simp [hteq], ?_⟩
            · rw [entriesStrictMono, hteq, List.pairwise_append]
              refine ⟨mono_take hm _, hreqm, ?_⟩
              intro a ha b hb
              obtain ⟨q, hq⟩ := List.mem_iff_get.mp ha
              have hqlt : q.val < sub64 e.index (firstIndexOf log) := by
                have := q.isLt
                simp only [List.length_take] at this
                omega
              have hgt : (log.take (sub64 e.index (firstIndexOf log))).get q
                  = log.get ⟨q.val, by omega⟩ := by
                rw [List.get_eq_getElem, List.get_eq_getElem, List.getElem_take]
              have hmg : (log.get ⟨q.val, by omega⟩).index
                  < (log.get ⟨sub64 e.index (firstIndexOf log), hposlen⟩).index := by
                exact List.pairwise_iff_get.mp hm _ _ hqlt
              rw [← hq, hgt]
              have hbe : e.index ≤ b.index := hble b hb
              rw [hexg] at hmg
              omega
            · rw [hteq, lastIndexOf_append_cons]
              have h2 : e.index ≤ lastIndexOf (e :: rest) := mono_cons_le_last hreqm
              omega
        · rw [if_neg hconf] at h
          refine ih log log2 hm hne hci htailm ?_ h
          intro b hb hbc ex2 hge2 hidx2
          exact hnoconf b (List.mem_cons_of_mem e hb) hbc ex2 hge2 hidx2
      | notOpen =>
        simp only [hge] at h
        exact Option.noConfusion h
      | indexErr =>
        simp only [hge] at h
        exact Option.noConfusion h
      | outOfRange =>
        simp only [hge] at h
        exact Option.noConfusion h

/-- NodeInv is the claimed inequality invariant
`lastApplied ≤ commitIndex ≤ log.lastIndex`, strengthened with the
structural log facts (strictly increasing indices, nonempty) that make
it inductive. -/
def NodeInv (s : RaftState) : Prop :=
  s.lastApplied ≤ s.commitIndex ∧ s.commitIndex ≤ lastIndexOf s.logEntries ∧
  entriesStrictMono s.logEntries ∧ s.logEntries ≠ []

lemma requestVote_inv {s : RaftState} {req : RequestVoteRequest} {now : Nat}
    {s2 : RaftState} {resp : RequestVoteResponse}
    (h : requestVote s req now = .ok s2 resp) (hinv : NodeInv s) : NodeInv s2 := by
  simp only [requestVote] at h
  split at h
  · exact HRes.noConfusion h
  · split at h
    · cases h
      exact hinv
    · split at h <;>
        first
          | (cases h; exact hinv)
          | (split at h <;>
              first
                | (cases h; exact hinv)
                | (split at h <;>
                    first
                      | (cases h; exact hinv)
                      | (split at h <;> (cases h; exact hinv))))

lemma commitStep_fields {s : RaftState} {i : Nat} {s2 : RaftState}
    (h : commitStep s i = some s2) :
    s2.logEntries = s.logEntries ∧ s2.lastApplied = s.lastApplied ∧
      (s2.commitIndex = s.commitIndex ∨ s2.commitIndex = i) := by
  cases hge : entriesGetEntry s.logEntries i with
  | ok e =>
    simp only [commitStep, hge] at h
    split at h
    · cases h
      exact ⟨rfl, rfl, Or.inl rfl⟩
    · split at h
      · cases h
        exact ⟨rfl, rfl, Or.inr rfl⟩
      · cases h
        exact ⟨rfl, rfl, Or.inl rfl⟩
  | notOpen =>
    simp only [commitStep, hge] at h
    exact Option.noConfusion h
  | indexErr =>
    simp only [commitStep, hge] at h
    exact Option.noConfusion h
  | outOfRange =>
    simp only [commitStep, hge] at h
    exact Option.noConfusion h

lemma commitScanGo_inv :
    ∀ (li : List Nat) (s s2 : RaftState), NodeInv s →
      (∀ i ∈ li, s.lastApplied ≤ i ∧ i ≤ lastIndexOf s.logEntries) →
      commitScanGo s li = some s2 → NodeInv s2 := by
  intro li
  induction li with
  | nil =>
    intro s s2 hinv _ h
    simp only [commitScanGo] at h
    cases h
    exact hinv
  | cons i rest ih =>
    intro s s2 hinv hrange h
    simp only [commitScanGo] at h
    cases hcs : commitStep s i with
    | none => rw [hcs] at h; exact Option.noConfusion h
    | some smid =>
      rw [hcs] at h
      obtain ⟨hlog, hla, hcior⟩ := commitStep_fields hcs
      obtain ⟨h1, h2, h3, h4⟩ := hinv
      obtain ⟨hri, hrl⟩ := hrange i (List.mem_cons_self i rest)
      have hinv2 : NodeInv smid := by
        refine ⟨?_, ?_, ?_, ?_⟩
        · rw [hla]
          rcases hcior with hc | hc <;> rw [hc]
          · exact h1
          · exact hri
        · rw [hlog]
          rcases hcior with hc | hc <;> rw [hc]
          · exact h2
          · exact hrl
        · rw [hlog]; exact h3
        · rw [hlog]; exact h4
      refine ih smid s2 hinv2 ?_ h
      intro j hj
      rw [hla, hlog]
      exact hrange j (List.mem_cons_of_mem i hj)

lemma commitScan_inv {s s2 : RaftState} (hinv : NodeInv s)
    (h : commitScan s = some s2) : NodeInv s2 := by
  simp only [commitScan] at h
  split at h
  · cases h
    exact hinv
  · refine commitScanGo_inv _ s s2 hinv ?_ h
    intro i hi
    rw [List.mem_range'_1] at hi
    obtain ⟨h1, h2, -, -⟩ := hinv
    omega

lemma takeSnapshot_inv {s : RaftState} {sb : List Nat} {s2 : RaftState}
    (hinv : NodeInv s) (h : takeSnapshot s sb = some s2) : NodeInv s2 := by
  obtain ⟨h1, h2, h3, h4⟩ := hinv
  simp only [takeSnapshot] at h
  split at h
  · cases h
    exact ⟨h1, h2, h3, h4⟩
  · cases hge : entriesGetEntry s.logEntries s.lastApplied with
    | ok e =>
      simp only [hge] at h
      cases hcp : entriesCompact s.logEntries e.index with
      | none =>
        simp only [hcp] at h
        exact Option.noConfusion h
      | some newLog =>
        simp only [hcp] at h
        cases h
        obtain ⟨hmap, hpos0, hposlen⟩ := entriesCompact_some hcp
        have hlast : lastIndexOf newLog = lastIndexOf s.logEntries := by
          rw [lastIndexOf_eq_of_map_index hmap]
          exact lastIndexOf_drop hposlen
        refine ⟨h1, ?_, ?_, ?_⟩
        · show s.commitIndex ≤ lastIndexOf newLog
          rw [hlast]
          exact h2
        · show entriesStrictMono newLog
          exact mono_of_map_index hmap.symm (mono_drop h3 _)
        · show newLog ≠ []
          refine ne_nil_of_map_index hmap.symm ?_
          intro hcon
          have := congrArg List.length hcon
          simp at this
          omega
    | notOpen =>
      simp only [hge] at h
      exact Option.noConfusion h
    | indexErr =>
      simp only [hge] at h
      exact Option.noConfusion h
    | outOfRange =>
      simp only [hge] at h
      exact Option.noConfusion h

lemma applyStep_inv {s : RaftState} {ns : Bool} {sb : List Nat} {s2 : RaftState}
    (hinv : NodeInv s) (h : applyStep s ns sb = some s2) : NodeInv s2 := by
  obtain ⟨h1, h2, h3, h4⟩ := hinv
  simp only [applyStep] at h
  by_cases hlt : s.lastApplied < s.commitIndex
  · rw [if_pos hlt] at h
    cases hge : entriesGetEntry s.logEntries (s.lastApplied + 1) with
    | ok entry =>
      simp only [hge] at h
      by_cases hnoop : entry.entryType = LogEntryType.noOpEntry
      · rw [if_pos hnoop] at h
        cases h
        exact ⟨show s.lastApplied + 1 ≤ s.commitIndex by omega, h2, h3, h4⟩
      · rw [if_neg hnoop] at h
        by_cases hns : ns = true
        · rw [if_pos hns] at h
          refine takeSnapshot_inv ?_ h
          exact ⟨show s.lastApplied + 1 ≤ s.commitIndex by omega, h2, h3, h4⟩
        · rw [if_neg hns] at h
          cases h
          exact ⟨show s.lastApplied + 1 ≤ s.commitIndex by omega, h2, h3, h4⟩
    | notOpen =>
      simp only [hge] at h
      exact Option.noConfusion h
    | indexErr =>
      simp only [hge] at h
      exact Option.noConfusion h
    | outOfRange =>
      simp only [hge] at h
      exact Option.noConfusion h
  · rw [if_neg hlt] at h
    cases h
    exact ⟨h1, h2, h3, h4⟩

lemma mono_append_last {l : List LogEntry} (hm : entriesStrictMono l) (e : LogEntry)
    (he : lastIndexOf l < e.index) :
    entriesStrictMono (l ++ [e]) ∧ lastIndexOf (l ++ [e]) = e.index := by
  constructor
  · rw [entriesStrictMono, List.pairwise_append]
    refine ⟨hm, by simp, ?_⟩
    intro a ha b hb
    rcases List.mem_singleton.mp hb with hb
    subst hb
    have := mono_mem_le_last hm ha
    omega
  · have : lastIndexOf (l ++ e :: []) = lastIndexOf [e] := lastIndexOf_append_cons l e []
    rw [this]
    rfl

lemma submitReplicated_inv {s : RaftState} (b : List Nat) (hinv : NodeInv s) :
    NodeInv (submitReplicatedOperation s b) := by
  obtain ⟨h1, h2, h3, h4⟩ := hinv
  simp only [submitReplicatedOperation]
  split
  · exact ⟨h1, h2, h3, h4⟩
  · have hlt : lastIndexOf s.logEntries < nextIndexOf s.logEntries := by
      simp only [nextIndexOf]
      omega
    obtain ⟨hm2, hl2⟩ := mono_append_last h3
      ⟨nextIndexOf s.logEntries, s.currentTerm, 0, b, .operationEntry⟩ hlt
    refine ⟨h1, ?_, hm2, by simp⟩
    show s.commitIndex ≤ lastIndexOf (s.logEntries ++ [_])
    rw [hl2]
    simp only [nextIndexOf]
    omega

lemma becomeLeader_inv {s : RaftState} (hinv : NodeInv s) : NodeInv (becomeLeader s) := by
  obtain ⟨h1, h2, h3, h4⟩ := hinv
  simp only [becomeLeader]
  have hlt : lastIndexOf s.logEntries < nextIndexOf s.logEntries := by
    simp only [nextIndexOf]
    omega
  obtain ⟨hm2, hl2⟩ := mono_append_last h3
    ⟨nextIndexOf s.logEntries, s.currentTerm, 0, [], .noOpEntry⟩ hlt
  refine ⟨h1, ?_, hm2, by simp⟩
  show s.commitIndex ≤ lastIndexOf (s.logEntries ++ [_])
  rw [hl2]
  simp only [nextIndexOf]
  omega

lemma submitReadOnly_inv {s : RaftState} (b : List Nat) (t : OperationType)
    (hinv : NodeInv s) : NodeInv (submitReadOnlyOperation s b t) := by
  simp only [submitReadOnlyOperation]
  split
  · exact hinv
  · split
    · exact hinv
    · exact hinv

lemma aeAfterStepDown_inv {sb : RaftState} {req : AppendEntriesRequest}
    {s2 : RaftState} {resp0 resp : AppendEntriesResponse}
    (hinv : NodeInv sb)
    (hmono : entriesStrictMono req.entries)
    (hnoconf : ∀ e ∈ req.entries, e.index ≤ sb.commitIndex →
      ∀ ex, entriesGetEntry sb.logEntries e.index = .ok ex → ex.index = e.index →
        ex.term = e.term)
    (h : aeAfterStepDown sb req resp0 = .ok s2 resp) : NodeInv s2 := by
  obtain ⟨h1, h2, h3, h4⟩ := hinv
  simp only [aeAfterStepDown] at h
  split at h
  · cases h
    exact ⟨h1, h2, h3, h4⟩
  · split at h
    · cases h
      exact ⟨h1, h2, h3, h4⟩
    · split at h
      · cases h
        exact ⟨h1, h2, h3, h4⟩
      · split at h
        · exact HRes.noConfusion h
        · cases h
          exact ⟨h1, h2, h3, h4⟩
        · cases hsc : aeScan sb.logEntries req.entries with
          | none =>
            rw [hsc] at h
            exact HRes.noConfusion h
          | some newLog =>
            rw [hsc] at h
            obtain ⟨hm2, hne2, hci2⟩ :=
              aeScan_spec sb.commitIndex req.entries sb.logEntries newLog h3 h4 h2 hmono
                hnoconf hsc
            simp only at h
            by_cases hlc : req.leaderCommit > sb.commitIndex
            · rw [if_pos hlc] at h
              cases h
              refine ⟨?_, ?_, hm2, hne2⟩
              · show sb.lastApplied ≤ min req.leaderCommit (lastIndexOf newLog)
                omega
              · show min req.leaderCommit (lastIndexOf newLog) ≤ lastIndexOf newLog
                omega
            · rw [if_neg hlc] at h
              cases h
              exact ⟨h1, hci2, hm2, hne2⟩

lemma appendEntriesH_inv {s : RaftState} {req : AppendEntriesRequest} {now : Nat}
    {s2 : RaftState} {resp : AppendEntriesResponse}
    (hinv : NodeInv s)
    (hmono : entriesStrictMono req.entries)
    (hnoconf : ∀ e ∈ req.entries, e.index ≤ s.commitIndex →
      ∀ ex, entriesGetEntry s.logEntries e.index = .ok ex → ex.index = e.index →
        ex.term = e.term)
    (h : appendEntriesH s req now = .ok s2 resp) : NodeInv s2 := by
  obtain ⟨h1, h2, h3, h4⟩ := hinv
  simp only [appendEntriesH] at h
  split at h
  · exact HRes.noConfusion h
  · split at h
    · cases h
      exact ⟨h1, h2, h3, h4⟩
    · by_cases hgt : req.term > s.currentTerm
      · rw [if_pos hgt] at h
        refine aeAfterStepDown_inv ?_ hmono ?_ h
        · exact ⟨h1, h2, h3, h4⟩
        · exact hnoconf
      · rw [if_neg hgt] at h
        refine aeAfterStepDown_inv ?_ hmono ?_ h
        · exact ⟨h1, h2, h3, h4⟩
        · exact hnoconf

lemma nodeInv_discard {s3 : RaftState} (li lt : Nat)
    (hlog : s3.logEntries = entriesDiscard li lt)
    (hla : s3.lastApplied = li) (hci : s3.commitIndex = li) : NodeInv s3 := by
  refine ⟨?_, ?_, ?_, ?_⟩
  · rw [hla, hci]
  · rw [hci, hlog]
    simp [entriesDiscard, lastIndexOf]
  · rw [hlog]
    simp [entriesDiscard, entriesStrictMono]
  · rw [hlog]
    simp [entriesDiscard]

lemma isAfterStepDown_inv {sb : RaftState} {req : InstallSnapshotRequest}
    {s2 : RaftState} {resp0 resp : InstallSnapshotResponse}
    (hinv : NodeInv sb) (hb : req.lastIncludedIndex < U64)
    (h : isAfterStepDown sb req resp0 = .ok s2 resp) : NodeInv s2 := by
  obtain ⟨h1, h2, h3, h4⟩ := hinv
  simp only [isAfterStepDown] at h
  split at h
  · cases h
    exact ⟨h1, h2, h3, h4⟩
  · split at h
    · exact HRes.noConfusion h
    · rename_i entryOpt heq
      cases entryOpt with
      | none =>
        simp only [] at h
        cases h
        exact nodeInv_discard req.lastIncludedIndex req.lastIncludedTerm rfl rfl rfl
      | some entry =>
        simp only [] at h
        by_cases hterm : entry.term ≠ req.lastIncludedTerm
        · rw [if_pos hterm] at h
          cases h
          exact nodeInv_discard req.lastIncludedIndex req.lastIncludedTerm rfl rfl rfl
        · rw [if_neg hterm] at h
          cases hcp : entriesCompact sb.logEntries req.lastIncludedIndex with
          | none =>
            simp only [hcp] at h
            exact HRes.noConfusion h
          | some newLog =>
            simp only [hcp] at h
            cases h
            obtain ⟨hmap, hpos0, hposlen⟩ := entriesCompact_some hcp
            have hlastEq : lastIndexOf newLog = lastIndexOf sb.logEntries := by
              rw [lastIndexOf_eq_of_map_index hmap]
              exact lastIndexOf_drop hposlen
            have hLII : req.lastIncludedIndex ≤ lastIndexOf sb.logEntries := by
              by_cases hfi : firstIndexOf sb.logEntries ≤ req.lastIncludedIndex
              · have hsub := sub64_eq_of_le hfi hb
                obtain ⟨hpl, hle⟩ := mono_last_eq_get h4
                have hgap := mono_gap h3 (sb.logEntries.length - 1) hpl
                rw [hsub] at hposlen hpos0
                rw [hle]
                omega
              · push_neg at hfi
                have := mono_first_le_last h3 h4
                omega
            refine ⟨le_refl _, ?_, ?_, ?_⟩
            · show req.lastIncludedIndex ≤ lastIndexOf newLog
              omega
            · show entriesStrictMono newLog
              exact mono_of_map_index hmap.symm (mono_drop h3 _)
            · show newLog ≠ []
              refine ne_nil_of_map_index hmap.symm ?_
              intro hcon
              have := congrArg List.length hcon
              simp at this
              omega

lemma installSnapshotH_inv {s : RaftState} {req : InstallSnapshotRequest} {now : Nat}
    {s2 : RaftState} {resp : InstallSnapshotResponse}
    (hinv : NodeInv s) (hb : req.lastIncludedIndex < U64)
    (h : installSnapshotH s req now = .ok s2 resp) : NodeInv s2 := by
  obtain ⟨h1, h2, h3, h4⟩ := hinv
  simp only [installSnapshotH] at h
  split at h
  · exact HRes.noConfusion h
  · split at h
    · cases h
      exact ⟨h1, h2, h3, h4⟩
    · by_cases hsd : s.currentTerm < req.term
      · simp only [if_pos hsd] at h
        refine isAfterStepDown_inv ?_ hb h
        exact ⟨h1, h2, h3, h4⟩
      · simp only [if_neg hsd] at h
        refine isAfterStepDown_inv ?_ hb h
        exact ⟨h1, h2, h3, h4⟩

/-- initialState is the state after `NewRaft` over empty storage
followed by `Start()`: a follower at term 0 holding only the
zero-valued sentinel, with nothing committed or applied and zeroed
peer bookkeeping. -/
def initialState (id : String) (peers : List String) : RaftState :=
  ⟨id, peers, .follower, 0, "", "", [⟨0, 0, 0, [], .noOpEntry⟩],
    0, 0, 0, 0, peers.map (fun p => (p, 0)), peers.map (fun p => (p, 0)),
    0, "", [], [], [], true, 0⟩

/-- Step is one atomic transition of a running node: an RPC handler
invocation on an arbitrary request (with the `uint64` typing bound on
the snapshot index), one iteration of the commit or apply loop, an
operation submission, an election transition, a step-down on a
higher-term response, or the replication bookkeeping update performed
after an AppendEntries or InstallSnapshot round-trip.  A constructor
applies only when the embedded function produces a successor state
(`Fatalf`/panic terminations produce none). -/
inductive Step : RaftState → RaftState → Prop where
  | requestVoteStep (s s2 : RaftState) (req : RequestVoteRequest) (now : Nat)
      (resp : RequestVoteResponse) (h : requestVote s req now = .ok s2 resp) : Step s s2
  | appendEntriesStep (s s2 : RaftState) (req : AppendEntriesRequest) (now : Nat)
      (resp : AppendEntriesResponse) (h : appendEntriesH s req now = .ok s2 resp) : Step s s2
  | installSnapshotStep (s s2 : RaftState) (req : InstallSnapshotRequest) (now : Nat)
      (resp : InstallSnapshotResponse) (hb : req.lastIncludedIndex < U64)
      (h : installSnapshotH s req now = .ok s2 resp) : Step s s2
  | commitLoopStep (s s2 : RaftState) (h : commitScan s = some s2) : Step s s2
  | applyLoopStep (s s2 : RaftState) (needSnap : Bool) (snapBytes : List Nat)
      (h : applyStep s needSnap snapBytes = some s2) : Step s s2
  | submitReplicatedStep (s : RaftState) (bytes : List Nat) :
      Step s (submitReplicatedOperation s bytes)
  | submitReadOnlyStep (s : RaftState) (bytes : List Nat) (t : OperationType) :
      Step s (submitReadOnlyOperation s bytes t)
  | becomeCandidateStep (s : RaftState) (h : s.nodeState = .follower) :
      Step s (becomeCandidate s)
  | becomeLeaderStep (s : RaftState) (h : s.nodeState = .follower) :
      Step s (becomeLeader s)
  | stepDownStep (s : RaftState) (lid : String) (term : Nat) (h : s.currentTerm < term) :
      Step s (becomeFollower s lid term)
  | peerBookkeepingStep (s : RaftState) (pid : String) (ni mi : Nat) :
      Step s { s with nextIdx := assocSet s.nextIdx pid ni,
                      matchIdx := assocSet s.matchIdx pid mi }

/-- ReachableAny holds for every state a node can reach from the
initial state under arbitrary (possibly protocol-violating) incoming
requests. -/
inductive ReachableAny (id : String) (peers : List String) : RaftState → Prop where
  | init : ReachableAny id peers (initialState id peers)
  | step (s s2 : RaftState) (hr : ReachableAny id peers s) (hs : Step s s2) :
      ReachableAny id peers s2

/-- AEWellFormed states that an AppendEntries request is the kind a
protocol-correct leader sends: its entries carry strictly increasing
indices, and no entry at an index the receiver has already committed
carries a conflicting term (Raft's leader-completeness and log-matching
guarantees). -/
def AEWellFormed (s : RaftState) (req : AppendEntriesRequest) : Prop :=
  entriesStrictMono req.entries ∧
  ∀ e ∈ req.entries, e.index ≤ s.commitIndex →
    ∀ ex, entriesGetEntry s.logEntries e.index = .ok ex → ex.index = e.index →
      ex.term = e.term

/-- StepWF restricts `Step` to protocol-well-formed AppendEntries
requests; all other transitions are unchanged. -/
inductive StepWF : RaftState → RaftState → Prop where
  | requestVoteStep (s s2 : RaftState) (req : RequestVoteRequest) (now : Nat)
      (resp : RequestVoteResponse) (h : requestVote s req now = .ok s2 resp) : StepWF s s2
  | appendEntriesStep (s s2 : RaftState) (req : AppendEntriesRequest) (now : Nat)
      (resp : AppendEntriesResponse) (hwf : AEWellFormed s req)
      (h : appendEntriesH s req now = .ok s2 resp) : StepWF s s2
  | installSnapshotStep (s s2 : RaftState) (req : InstallSnapshotRequest) (now : Nat)
      (resp : InstallSnapshotResponse) (hb : req.lastIncludedIndex < U64)
      (h : installSnapshotH s req now = .ok s2 resp) : StepWF s s2
  | commitLoopStep (s s2 : RaftState) (h : commitScan s = some s2) : StepWF s s2
  | applyLoopStep (s s2 : RaftState) (needSnap : Bool) (snapBytes : List Nat)
      (h : applyStep s needSnap snapBytes = some s2) : StepWF s s2
  | submitReplicatedStep (s : RaftState) (bytes : List Nat) :
      StepWF s (submitReplicatedOperation s bytes)
  | submitReadOnlyStep (s : RaftState) (bytes : List Nat) (t : OperationType) :
      StepWF s (submitReadOnlyOperation s bytes t)
  | becomeCandidateStep (s : RaftState) (h : s.nodeState = .follower) :
      StepWF s (becomeCandidate s)
  | becomeLeaderStep (s : RaftState) (h : s.nodeState = .follower) :
      StepWF s (becomeLeader s)
  | stepDownStep (s : RaftState) (lid : String) (term : Nat) (h : s.currentTerm < term) :
      StepWF s (becomeFollower s lid term)
  | peerBookkeepingStep (s : RaftState) (pid : String) (ni mi : Nat) :
      StepWF s { s with nextIdx := assocSet s.nextIdx pid ni,
                        matchIdx := assocSet s.matchIdx pid mi }

/-- ReachableWF holds for every state a node can reach when incoming
AppendEntries requests are protocol-well-formed. -/
inductive ReachableWF (id : String) (peers : List String) : RaftState → Prop where
  | init : ReachableWF id peers (initialState id peers)
  | step (s s2 : RaftState) (hr : ReachableWF id peers s) (hs : StepWF s s2) :
      ReachableWF id peers s2

lemma nodeInv_initialState (id : String) (peers : List String) :
    NodeInv (initialState id peers) := by
  refine ⟨le_refl 0, ?_, ?_, ?_⟩
  · show (0 : Nat) ≤ lastIndexOf [⟨0, 0, 0, [], .noOpEntry⟩]
    exact Nat.zero_le _
  · show entriesStrictMono [⟨0, 0, 0, [], .noOpEntry⟩]
    simp [entriesStrictMono]
  · show ([⟨0, 0, 0, [], .noOpEntry⟩] : List LogEntry) ≠ []
    simp

lemma stepWF_inv {s s2 : RaftState} (hinv : NodeInv s) (h : StepWF s s2) : NodeInv s2 := by
  cases h with
  | requestVoteStep _ req now resp hh => exact requestVote_inv hh hinv
  | appendEntriesStep _ req now resp hwf hh =>
    exact appendEntriesH_inv hinv hwf.1 hwf.2 hh
  | installSnapshotStep _ req now resp hb hh => exact installSnapshotH_inv hinv hb hh
  | commitLoopStep _ hh => exact commitScan_inv hinv hh
  | applyLoopStep _ needSnap snapBytes hh => exact applyStep_inv hinv hh
  | submitReplicatedStep bytes => exact submitReplicated_inv bytes hinv
  | submitReadOnlyStep bytes t => exact submitReadOnly_inv bytes t hinv
  | becomeCandidateStep hh => exact hinv
  | becomeLeaderStep hh => exact becomeLeader_inv hinv
  | stepDownStep lid term hh => exact hinv
  | peerBookkeepingStep pid ni mi => exact hinv

lemma nodeInv_reachableWF (id : String) (peers : List String) (s : RaftState)
    (h : ReachableWF id peers s) : NodeInv s := by
  induction h with
  | init => exact nodeInv_initialState id peers
  | step sa sb hr hs ih => exact stepWF_inv ih hs

/-- C3 (amended): on every state reachable from the initial state
under protocol-well-formed AppendEntries requests — the entries of a
request strictly increase in index and never conflict with the
receiver's log at an already-committed index, exactly what correct
leaders guarantee — the inequalities
`lastApplied ≤ commitIndex ≤ log.lastIndex` hold after every step of
the RPC handlers, the commit and apply loop iterations, and the
operation submissions. -/
theorem c3_inequalities_wf (id : String) (peers : List String) (s : RaftState)
    (h : ReachableWF id peers s) :
    s.lastApplied ≤ s.commitIndex ∧ s.commitIndex ≤ lastIndexOf s.logEntries :=
  ⟨(nodeInv_reachableWF id peers s h).1, (nodeInv_reachableWF id peers s h).2.1⟩

/-- Witness for C3's amended statement at the initial state of a
three-node cluster. -/
theorem c3_inequalities_wf_witness :
    (initialState "A" ["A", "B", "C"]).lastApplied
        ≤ (initialState "A" ["A", "B", "C"]).commitIndex ∧
    (initialState "A" ["A", "B", "C"]).commitIndex
        ≤ lastIndexOf (initialState "A" ["A", "B", "C"]).logEntries :=
  c3_inequalities_wf "A" ["A", "B", "C"] (initialState "A" ["A", "B", "C"]) ReachableWF.init

/-- c3Req1 replicates entries 1 and 2 at term 1 with leaderCommit 2. -/
def c3Req1 : AppendEntriesRequest :=
  ⟨1, "B", 0, 0, [⟨1, 1, 0, [7], .operationEntry⟩, ⟨2, 1, 0, [8], .operationEntry⟩], 2⟩

/-- c3Req2 is a higher-term request whose single entry conflicts with
the already-committed entry at index 1. -/
def c3Req2 : AppendEntriesRequest :=
  ⟨2, "C", 0, 0, [⟨1, 2, 0, [9], .operationEntry⟩], 0⟩

/-- c3Mid is the node after processing `c3Req1`: entries 1 and 2 at
term 1, commitIndex 2. -/
def c3Mid : RaftState :=
  ⟨"A", ["A", "B", "C"], .follower, 1, "", "B",
    [⟨0, 0, 0, [], .noOpEntry⟩, ⟨1, 1, 0, [7], .operationEntry⟩, ⟨2, 1, 0, [8], .operationEntry⟩],
    2, 0, 0, 0, [("A", 0), ("B", 0), ("C", 0)], [("A", 0), ("B", 0), ("C", 0)],
    1, "", [], [], [], true, 0⟩

/-- c3Bad is the node after `c3Req2` truncated the log below the
commit index: commitIndex is 2 but the log now ends at index 1. -/
def c3Bad : RaftState :=
  ⟨"A", ["A", "B", "C"], .follower, 2, "", "C",
    [⟨0, 0, 0, [], .noOpEntry⟩, ⟨1, 2, 0, [9], .operationEntry⟩],
    2, 0, 0, 0, [("A", 0), ("B", 0), ("C", 0)], [("A", 0), ("B", 0), ("C", 0)],
    2, "", [], [], [], true, 0⟩

/-- Counterexample for C3 as stated: a node that accepted ordinary
AppendEntries requests reaches, through the handler itself, a state
where `commitIndex > log.lastIndex` — a higher-term request that
conflicts at an already-committed index makes the handler truncate the
log below commitIndex and append a shorter suffix, and the handler
never lowers commitIndex.  (Such a request cannot be produced by a
correct leader, which is exactly the proviso the amended claim adds.) -/
theorem c3_counterexample :
    ReachableAny "A" ["A", "B", "C"] c3Bad ∧
      ¬ (c3Bad.lastApplied ≤ c3Bad.commitIndex ∧
          c3Bad.commitIndex ≤ lastIndexOf c3Bad.logEntries) := by
  constructor
  · refine ReachableAny.step c3Mid c3Bad ?_ ?_
    · refine ReachableAny.step (initialState "A" ["A", "B", "C"]) c3Mid ReachableAny.init ?_
      exact Step.appendEntriesStep _ _ c3Req1 0 ⟨1, true, 0⟩ (by decide)
    · exact Step.appendEntriesStep _ _ c3Req2 0 ⟨2, true, 0⟩ (by decide)
  · decide

end Goraft
